import Mathlib

/-
Verification of the chunked transfer engine of the notion-file-transfer
repository (upload.py, download.py, main.py).

The Python sources are shallowly embedded as executable Lean definitions:
  * the part/chunk planning arithmetic of download.py (lines 91-98) and
    upload.py (lines 144-153),
  * the chunk-metadata wire format written by upload.py
    (create_page_with_file) and parsed back by download.py (main),
  * the per-file download routine download_file_multipart with its
    skip-if-exists, part-failure and concatenation-failure paths,
  * the download pipeline phases of download.py main: candidate listing,
    size probing, parallel download, direct tag updates, and grouped
    chunk reassembly with tag updates,
  * the per-file upload chunk loop of upload.py's main block, and
  * the tag updater update_page_tags of download.py.

Effectful calls (network requests, filesystem operations) are modelled by
explicit outcome environments: a call that can raise in Python is a step
whose success is given by the environment, and the embedding follows the
source's control flow (try/except/finally, breaks, early returns) exactly.
Machine integers are modelled as Nat; byte ranges as pairs of Nat.
-/

namespace NotionTransfer

/-! ## Chunk/part planning arithmetic

download.py line 91-92:
  part_size = PART_SIZE_MB * 1024 * 1024          (PART_SIZE_MB = 10)
  num_parts = (total_size + part_size - 1) // part_size
download.py line 96:
  range = (i * part_size, min((i + 1) * part_size - 1, total_size - 1))
upload.py lines 24-25:
  PART_SIZE = 20 * 1024**2, MAX_FILE_SIZE = 5 * 1024**3
upload.py lines 144, 147-148:
  num_chunks = math.ceil(file_size / MAX_FILE_SIZE)
  chunk_start = chunk_index * MAX_FILE_SIZE
  chunk_end = min(chunk_start + MAX_FILE_SIZE, file_size)
upload.py line 153: num_parts = math.ceil(chunk_size / PART_SIZE)
-/

/-- download.py PART_SIZE_MB * 1024 * 1024 with PART_SIZE_MB = 10. -/
def partSizeDl : Nat := 10 * 1024 * 1024

/-- upload.py PART_SIZE = 20 * 1024**2. -/
def PART_SIZE : Nat := 20 * 1024 ^ 2

/-- upload.py MAX_FILE_SIZE = 5 * 1024**3. -/
def MAX_FILE_SIZE : Nat := 5 * 1024 ^ 3

/-- download.py line 92: num_parts = (total_size + part_size - 1) // part_size. -/
def numParts (t u : Nat) : Nat := (t + u - 1) / u

/-- Mathematical ceiling of t / u on naturals; this is the value of
math.ceil(t / u) in upload.py lines 144 and 153 (idealising the float
division as exact). -/
def ceilDivSpec (t u : Nat) : Nat := if t % u = 0 then t / u else t / u + 1

/-- download.py line 96: the i-th inclusive byte range of a part plan. -/
def rangeDl (t u i : Nat) : Nat × Nat := (i * u, min ((i + 1) * u - 1) (t - 1))

/-- The full list of inclusive byte ranges planned by download.py lines 96-98. -/
def planRanges (t u : Nat) : List (Nat × Nat) := (List.range (numParts t u)).map (rangeDl t u)

/-- upload.py lines 147-148: the i-th half-open chunk range
(chunk_start, chunk_end). -/
def rangeUp (t u i : Nat) : Nat × Nat := (i * u, min ((i + 1) * u) t)

/-- The list of half-open chunk ranges produced by the upload loop. -/
def planChunks (t u : Nat) : List (Nat × Nat) := (List.range (ceilDivSpec t u)).map (rangeUp t u)

/-! ## Chunk-metadata wire format

upload.py line 89:
  description_text = f"{description_filename} (chunk {chunk_index} of {total_chunks})"
download.py line 176:
  match = re.search(r"^(.*?) \(chunk (\d+) of (\d+)\)$", description)
Strings are modelled as List Char.  The regex is modelled by its exact
semantics on the whole string: the anchors ^ and $ force a decomposition
  description = group1 ++ " (chunk " ++ digits ++ " of " ++ digits ++ ")" ++ tail
with tail empty or a single trailing newline (Python's $ also matches just
before a final newline), group1 free of newlines (. does not match them),
and the non-greedy (.*?) selecting the shortest possible group1.  \d is
modelled as an ASCII digit. -/

/-- The literal " (chunk " of the wire format. -/
abbrev litChunk : List Char := [' ', '(', 'c', 'h', 'u', 'n', 'k', ' ']

/-- The literal " of " of the wire format. -/
abbrev litOf : List Char := [' ', 'o', 'f', ' ']

/-- The literal ".part" of download.py line 191's fragment naming. -/
abbrev litPart : List Char := ['.', 'p', 'a', 'r', 't']

/-- int() applied to a digit string (download.py line 179). -/
def digitsToNat (l : List Char) : Nat :=
  l.foldl (fun a c => 10 * a + (c.toNat - 48)) 0

/-- Decimal digit characters of n, most significant first (fuel-driven). -/
def natDigitsAux : Nat → Nat → List Char
  | 0, _ => []
  | fuel + 1, n =>
    if n = 0 then [] else natDigitsAux fuel (n / 10) ++ [Nat.digitChar (n % 10)]

/-- Python str() of a nonnegative int: decimal digits, "0" for zero. -/
def natToDigits (n : Nat) : List Char := if n = 0 then ['0'] else natDigitsAux n n

/-- upload.py line 89: the description string written for chunk k of n of
file f. -/
def buildDesc (f : List Char) (k n : Nat) : List Char :=
  f ++ litChunk ++ natToDigits k ++ litOf ++ natToDigits n ++ [')']

/-- Strip an expected literal from the front of a list. -/
def stripLit : List Char → List Char → Option (List Char)
  | [], r => some r
  | _ :: _, [] => none
  | c :: cs, d :: ds => if c = d then stripLit cs ds else none

/-- Accept exactly ")" or ")\n" as what remains after the second digit
group (the regex's closing "\)$"). -/
def checkClose (l : List Char) (a b : Nat) : Option (Nat × Nat) :=
  if l = [')'] then some (a, b) else if l = [')', '\n'] then some (a, b) else none

/-- Try to read " (chunk " ++ digits ++ " of " ++ digits ++ ")" (plus an
optional final newline) as the entire remainder of the description. -/
def matchSuffix (l : List Char) : Option (Nat × Nat) :=
  (stripLit litChunk l).bind fun r1 =>
    if r1.takeWhile Char.isDigit = [] then none
    else
      (stripLit litOf (r1.drop (r1.takeWhile Char.isDigit).length)).bind fun r2 =>
        if r2.takeWhile Char.isDigit = [] then none
        else
          checkClose (r2.drop (r2.takeWhile Char.isDigit).length)
            (digitsToNat (r1.takeWhile Char.isDigit))
            (digitsToNat (r2.takeWhile Char.isDigit))

/-- Dispatch on the outcome of an attempted suffix match: a hit ends the
scan with the accumulated group1, otherwise the scan continues. -/
def parseStep (pre : List Char) :
    Option (Nat × Nat) → Option (List Char × Nat × Nat) → Option (List Char × Nat × Nat)
  | some kn, _ => some (pre.reverse, kn.1, kn.2)
  | none, fb => fb

/-- The regex engine's scan: try the shortest group1 first (non-greedy),
extending it one non-newline character at a time. -/
def parseDescAux : List Char → List Char → Option (List Char × Nat × Nat)
  | pre, [] => parseStep pre (matchSuffix []) none
  | pre, c :: rest2 =>
    parseStep pre (matchSuffix (c :: rest2))
      (if c = '\n' then none else parseDescAux (c :: pre) rest2)

/-- download.py lines 176-179: parse a description back to
(original filename, chunk number, total chunks); none when the pattern
does not match (the record is then skipped). -/
def parseDesc (s : List Char) : Option (List Char × Nat × Nat) := parseDescAux [] s

/-- Python f"{k:03d}": decimal digits of k left-padded with zeros to
width 3 (download.py line 191). -/
def pad3 (k : Nat) : List Char :=
  List.replicate (3 - (natToDigits k).length) '0' ++ natToDigits k

/-- download.py line 191: chunk_filename = f"{original_filename}.part{chunk_num:03d}". -/
def chunkFileName (f : List Char) (k : Nat) : List Char := f ++ litPart ++ pad3 k

/-! ## Tag updater (download.py update_page_tags, lines 58-82) -/

/-- One entry of a Notion multi_select value; .get("id") and .get("name")
may be absent, hence Option. -/
structure Tag where
  id : Option String
  name : Option String
deriving DecidableEq

/-- The hard-coded pending tag name removed by update_page_tags (line 61). -/
def pendingTagName : String := "ダウンロード待ち"

/-- download.py lines 61-66: drop the pending tag, then append the
downloaded tag only when no remaining tag already carries that name. -/
def computeNewTags (current : List Tag) (dlName : String) : List Tag :=
  let nt := current.filter (fun t => t.name != some pendingTagName)
  if nt.any (fun t => t.name == some dlName) then nt else nt ++ [⟨none, some dlName⟩]

/-- The set of (id, name) pairs of a tag list (download.py lines 70-71). -/
def tagPairSet (l : List Tag) : Finset (Option String × Option String) :=
  (l.map (fun t => (t.id, t.name))).toFinset

/-- download.py lines 70-76: the PATCH request is issued iff the
(id, name) pair sets before and after differ. -/
def tagUpdateCallsApi (current : List Tag) (dlName : String) : Bool :=
  decide (¬ tagPairSet current = tagPairSet (computeNewTags current dlName))

/-! ## Per-file multipart download (download.py download_file_multipart,
lines 84-134) -/

/-- Observable outcome of one download_file_multipart call: its return
value, the bytes reported to the shared progress bar, the number of part
requests submitted, and whether the temporary .parts directory was
created / removed and the final file completely concatenated. -/
structure DlResult where
  ok : Bool
  progress : Nat
  partsStarted : Nat
  tempCreated : Bool
  tempDeleted : Bool
  finalComplete : Bool
deriving DecidableEq

/-- download_file_multipart with the effectful calls abstracted: onDisk is
os.path.exists(final_path) at entry, partOk i tells whether part i's range
request succeeds, concatOk whether the final concatenation avoids IOError.
Control flow follows lines 84-134: skip-and-count-full when the final file
exists; rmtree and False when any part fails; the finally clause removes
the temporary directory on both concatenation outcomes. -/
def dlFile (onDisk : Bool) (totalSize : Nat) (partOk : Nat → Bool) (concatOk : Bool) :
    DlResult :=
  if onDisk then
    { ok := true, progress := totalSize, partsStarted := 0,
      tempCreated := false, tempDeleted := false, finalComplete := false }
  else
    if (List.range (numParts totalSize partSizeDl)).all partOk then
      if concatOk then
        { ok := true, progress := totalSize,
          partsStarted := numParts totalSize partSizeDl,
          tempCreated := true, tempDeleted := true, finalComplete := true }
      else
        { ok := false, progress := totalSize,
          partsStarted := numParts totalSize partSizeDl,
          tempCreated := true, tempDeleted := true, finalComplete := false }
    else
      { ok := false,
        progress := (((List.range (numParts totalSize partSizeDl)).filter partOk).map
          (fun i => (rangeDl totalSize partSizeDl i).2 + 1 -
            (rangeDl totalSize partSizeDl i).1)).sum,
        partsStarted := numParts totalSize partSizeDl,
        tempCreated := true, tempDeleted := true, finalComplete := false }

/-! ## Download pipeline (download.py main, lines 156-258) -/

/-- One download candidate after listing and sizing: page id, parsed
original filename, chunk position, destination path and probed size. -/
structure Candidate where
  pid : Nat
  name : List Char
  chunkNum : Nat
  totalChunks : Nat
  path : List Char
  size : Nat
deriving DecidableEq

/-- Outcomes of the network calls of one pipeline run, keyed by page id:
partOk pid i is part i's fetch outcome, concatOk pid the concatenation
outcome, for the candidate owning that page. -/
structure DlEnv where
  partOk : Nat → Nat → Bool
  concatOk : Nat → Bool

/-- Whether every part fetch of candidate c succeeds. -/
def partsAllOk (env : DlEnv) (c : Candidate) : Bool :=
  (List.range (numParts c.size partSizeDl)).all (env.partOk c.pid)

/-- download.py line 219: one download_file_multipart call for a task. -/
def runCand (disk0 : List Char → Bool) (env : DlEnv) (c : Candidate) : DlResult :=
  dlFile (disk0 c.path) c.size (env.partOk c.pid) (env.concatOk c.pid)

/-- download.py line 220: only tasks with size > 0 are submitted. -/
def attemptedTasks (cands : List Candidate) : List Candidate :=
  cands.filter (fun c => decide (0 < c.size))

/-- The download phase: every submitted task paired with its outcome.
All calls read the same initial disk state (they run concurrently). -/
def downloadResults (disk0 : List Char → Bool) (env : DlEnv) (cands : List Candidate) :
    List (Candidate × DlResult) :=
  (attemptedTasks cands).map (fun c => (c, runCand disk0 env c))

/-- Whether candidate c's final path gets written during the download
phase: it ran (size > 0, not already on disk) and every part succeeded
(the concatenation writes the file even when it raises mid-way). -/
def dlWroteB (disk0 : List Char → Bool) (env : DlEnv) (c : Candidate) : Bool :=
  decide (0 < c.size) && !(disk0 c.path) && partsAllOk env c

/-- Filesystem contents after the download phase. -/
def diskAfterDl (disk0 : List Char → Bool) (env : DlEnv) (cands : List Candidate) :
    List Char → Bool :=
  fun p => disk0 p || cands.any (fun c => c.path == p && dlWroteB disk0 env c)

/-- True for candidates registered in chunk_files_info (total_chunks ≠ 1,
download.py lines 188-193). -/
def isChunkCand (c : Candidate) : Bool := c.totalChunks != 1

/-- The value list of chunk_files_info for one original filename. -/
def chunkGroup (cands : List Candidate) (nm : List Char) : List Candidate :=
  cands.filter (fun c => isChunkCand c && c.name == nm)

/-- Deduplicate keeping first occurrences (Python dict insertion order). -/
def firstDedupAux (seen : List (List Char)) : List (List Char) → List (List Char)
  | [] => []
  | x :: xs => if x ∈ seen then firstDedupAux seen xs else x :: firstDedupAux (x :: seen) xs

/-- The keys of chunk_files_info in insertion order. -/
def groupNames (cands : List Candidate) : List (List Char) :=
  firstDedupAux [] ((cands.filter isChunkCand).map (fun c => c.name))

/-- Outcome of processing one reassembly group (download.py lines 240-251):
the resulting filesystem, whether the group reconstructed, whether it was
reported as incomplete, and the page ids whose tags get updated. -/
structure GroupOutcome where
  disk : List Char → Bool
  reconstructed : Bool
  reported : Bool
  tagPids : List Nat

/-- download.py lines 240-251 for a single group: when every fragment path
exists, reconstruct_file_from_chunks concatenates them into the final file
and deletes every fragment, and every page of the group has its tags
updated; otherwise nothing on disk changes and the group is reported. -/
def processGroup (dlFolder nm : List Char) (g : List Candidate) (disk : List Char → Bool) :
    GroupOutcome :=
  if (g.map (fun c => c.path)).all disk then
    { disk := fun p =>
        (disk p && !(decide (p ∈ g.map (fun c => c.path)))) || decide (p = dlFolder ++ nm),
      reconstructed := true, reported := false, tagPids := g.map (fun c => c.pid) }
  else
    { disk := disk, reconstructed := false, reported := true, tagPids := [] }

/-- Accumulated outcome of the reassembly phase. -/
structure GOut where
  disk : List Char → Bool
  recNames : List (List Char)
  tagPids : List Nat

/-- download.py lines 238-251: process every group in insertion order,
threading the filesystem through. -/
def processGroups (dlFolder : List Char) (cands : List Candidate) :
    (List Char → Bool) → List (List Char) → GOut
  | disk, [] => ⟨disk, [], []⟩
  | disk, nm :: rest =>
    ⟨(processGroups dlFolder cands
        (processGroup dlFolder nm (chunkGroup cands nm) disk).disk rest).disk,
     (if (processGroup dlFolder nm (chunkGroup cands nm) disk).reconstructed then [nm] else [])
       ++ (processGroups dlFolder cands
            (processGroup dlFolder nm (chunkGroup cands nm) disk).disk rest).recNames,
     (processGroup dlFolder nm (chunkGroup cands nm) disk).tagPids
       ++ (processGroups dlFolder cands
            (processGroup dlFolder nm (chunkGroup cands nm) disk).disk rest).tagPids⟩

/-- Observable outcome of download.py main's phases 3-5 starting from the
sized candidate list. -/
structure PipeOut where
  results : List (Candidate × DlResult)
  successPids : List Nat
  directTagPids : List Nat
  recNames : List (List Char)
  groupTagPids : List Nat
  tagUpdatedPids : List Nat
  diskFinal : List Char → Bool

/-- download.py main, phases 3 (parallel download of tasks with size > 0),
4 (tag update for successful non-chunk tasks) and 5 (group reassembly and
per-group tag updates). -/
def runFromCands (dlFolder : List Char) (disk0 : List Char → Bool) (env : DlEnv)
    (cands : List Candidate) : PipeOut :=
  let results := downloadResults disk0 env cands
  let succ := (results.filter (fun r => r.2.ok)).map (fun r => r.1)
  let direct := (succ.filter (fun c => c.totalChunks == 1)).map (fun c => c.pid)
  let g := processGroups dlFolder cands (diskAfterDl disk0 env cands) (groupNames cands)
  { results := results, successPids := succ.map (fun c => c.pid), directTagPids := direct,
    recNames := g.recNames, groupTagPids := g.tagPids,
    tagUpdatedPids := direct ++ g.tagPids, diskFinal := g.disk }

/-- One page as returned by the query, reduced to what the listing loop
reads: its description text (if any), whether a video file block with a
URL is found, and the outcome of the size probe (none = request exception;
some none = response without a content-length header). -/
structure RawPage where
  pid : Nat
  desc : Option (List Char)
  blocksOk : Bool
  probe : Option (Option Nat)

/-- download.py get_task_size, lines 146-154:
int(res.headers.get('content-length', 0)) with size 0 on any request
exception. -/
def taskSize (probe : Option (Option Nat)) : Nat :=
  match probe with
  | none => 0
  | some h => h.getD 0

/-- download.py lines 171-195: one page's contribution to the task list;
none when the description is missing, fails to parse, or no video file
block is found. -/
def candOf (dlFolder tmpDir : List Char) (p : RawPage) : Option Candidate :=
  match p.desc with
  | none => none
  | some d =>
    match parseDesc d with
    | none => none
    | some fkn =>
      if p.blocksOk then
        some { pid := p.pid, name := fkn.1, chunkNum := fkn.2.1, totalChunks := fkn.2.2,
               path := if fkn.2.2 == 1 then dlFolder ++ fkn.1
                       else tmpDir ++ chunkFileName fkn.1 fkn.2.1,
               size := taskSize p.probe }
      else none

/-- download.py lines 166-195: the listing phase over all queried pages. -/
def listCandidates (dlFolder tmpDir : List Char) (pages : List RawPage) : List Candidate :=
  pages.filterMap (candOf dlFolder tmpDir)

/-! ## Fragment path ordering (download.py reconstruct_file_from_chunks,
lines 136-143: chunk_paths.sort() before concatenation) -/

/-- Python string < on paths: strict lexicographic order by code point. -/
def pathLt (a b : List Char) : Prop := List.Lex (· < ·) a b

/-- The reflexive closure of pathLt, the order list.sort sorts by. -/
def pathLe (a b : List Char) : Prop := pathLt a b ∨ a = b

instance : DecidableRel pathLt := fun a b =>
  inferInstanceAs (Decidable (List.Lex (· < ·) a b))

instance : DecidableRel pathLe := fun a b =>
  inferInstanceAs (Decidable (_ ∨ _))

instance : IsTrans (List Char) pathLt :=
  inferInstanceAs (IsTrans (List Char) (List.Lex (· < ·)))

instance : IsAsymm (List Char) pathLt :=
  inferInstanceAs (IsAsymm (List Char) (List.Lex (· < ·)))

instance : IsTrichotomous (List Char) pathLt :=
  inferInstanceAs (IsTrichotomous (List Char) (List.Lex (· < ·)))

instance : IsTrans (List Char) pathLe where
  trans a b c hab hbc := by
    rcases hab with hab | hab
    · rcases hbc with hbc | hbc
      · exact Or.inl (IsTrans.trans a b c hab hbc)
      · exact Or.inl (hbc ▸ hab)
    · exact hab ▸ hbc

instance : IsTotal (List Char) pathLe where
  total a b := by
    rcases @IsTrichotomous.trichotomous (List Char) pathLt _ a b with h | h | h
    · exact Or.inl (Or.inl h)
    · exact Or.inl (Or.inr h)
    · exact Or.inr (Or.inl h)

instance : IsAntisymm (List Char) pathLe where
  antisymm a b hab hba := by
    rcases hab with hab | hab
    · rcases hba with hba | hba
      · exact absurd hba (IsAsymm.asymm a b hab)
      · exact hba.symm
    · exact hab

/-- chunk_paths.sort(): Python's sort, modelled as a sort by pathLe (any
correct sort yields the same list since pathLe is total and antisymmetric). -/
def sortPaths (l : List (List Char)) : List (List Char) := List.insertionSort pathLe l

/-- Sorting chunk indices numerically. -/
def sortNat (l : List Nat) : List Nat := List.insertionSort (· ≤ ·) l

/-! ## Upload chunk loop (upload.py lines 122-228) -/

/-- The fallible steps executed for one chunk, in program order:
create_file_upload, the part-send loop (send_file_part via the pool,
re-raised by future.result()), complete_file_upload, create_page_with_file,
and - for the last chunk only - shutil.move to the uploaded folder. -/
inductive UStep
  | createSession
  | sendParts
  | complete
  | createPage
  | moveFile
deriving DecidableEq

/-- Outcomes of the upload steps: ok i s tells whether step s of chunk i
(1-based) runs without raising. -/
structure UEnv where
  ok : Nat → UStep → Bool

/-- Observable per-file state of the upload loop: chunks whose iteration
started, chunks for which a remote record (page) was created, whether the
local file was moved to the uploaded folder, and the first failure. -/
structure UState where
  attempted : List Nat
  records : List Nat
  moved : Bool
  failed : Option (Nat × UStep)
deriving DecidableEq

/-- State at the start of a file's upload. -/
def initUState : UState := ⟨[], [], false, none⟩

/-- The try-block of upload.py lines 146-223 for chunk i of n: steps run
in order, the first raise aborts the chunk (except clause, lines 224-228);
the record exists once create_page_with_file returned (line 205); the move
(line 221) runs only when i = n, after the record was created. -/
def runChunk (env : UEnv) (n i : Nat) (st : UState) : UState × Bool :=
  if env.ok i UStep.createSession then
    if env.ok i UStep.sendParts then
      if env.ok i UStep.complete then
        if env.ok i UStep.createPage then
          if i = n then
            if env.ok i UStep.moveFile then
              ({ st with records := st.records ++ [i], moved := true }, true)
            else
              ({ { st with records := st.records ++ [i] } with
                 failed := some (i, UStep.moveFile) }, false)
          else ({ st with records := st.records ++ [i] }, true)
        else ({ st with failed := some (i, UStep.createPage) }, false)
      else ({ st with failed := some (i, UStep.complete) }, false)
    else ({ st with failed := some (i, UStep.sendParts) }, false)
  else ({ st with failed := some (i, UStep.createSession) }, false)

/-- The chunk loop from chunk i with fuel iterations left; a failed chunk
breaks out of the loop (upload.py line 228). -/
def runFrom (env : UEnv) (n : Nat) : Nat → Nat → UState → UState
  | 0, _, st => st
  | fuel + 1, i, st =>
    let r := runChunk env n i { st with attempted := st.attempted ++ [i] }
    if r.2 then runFrom env n fuel (i + 1) r.1 else r.1

/-- upload.py lines 145-228: process all n chunks of one file. -/
def processFile (env : UEnv) (n : Nat) : UState := runFrom env n n 1 initUState

theorem numParts_eq_ceil (t u : Nat) (hu : 0 < u) : numParts t u = ceilDivSpec t u := by
  have hdm := Nat.div_add_mod t u
  have hmlt : t % u < u := Nat.mod_lt _ hu
  unfold numParts ceilDivSpec
  by_cases hr : t % u = 0
  · rw [if_pos hr]
    have h1 : t + u - 1 = (u - 1) + u * (t / u) := by omega
    rw [h1, Nat.add_mul_div_left _ _ hu, Nat.div_eq_of_lt (by omega), Nat.zero_add]
  · rw [if_neg hr]
    have hma := Nat.mul_add u (t / u) 1
    have hm1 := Nat.mul_one u
    have h1 : t + u - 1 = (t % u - 1) + u * (t / u + 1) := by omega
    rw [h1, Nat.add_mul_div_left _ _ hu, Nat.div_eq_of_lt (by omega), Nat.zero_add]

theorem numParts_pos (t u : Nat) (hu : 0 < u) (ht : 0 < t) : 0 < numParts t u := by
  have h : 1 * u ≤ t + u - 1 := by omega
  have h2 := (Nat.le_div_iff_mul_le hu).mpr h
  unfold numParts
  omega

theorem t_pos_of_lt_numParts (t u i : Nat) (hi : i < numParts t u) : 0 < t := by
  by_contra h
  have ht : t = 0 := by omega
  subst ht
  have h0 : numParts 0 u = 0 := by
    rcases Nat.eq_zero_or_pos u with hu | hu
    · subst hu; rfl
    · unfold numParts; exact Nat.div_eq_of_lt (by omega)
  omega

theorem numParts_mul_lower (t u : Nat) (hu : 0 < u) (ht : 0 < t) :
    (numParts t u - 1) * u < t := by
  have h1 : numParts t u * u ≤ t + u - 1 := Nat.div_mul_le_self _ _
  have hs := Nat.sub_mul (numParts t u) 1 u
  have ho := Nat.one_mul u
  omega

theorem numParts_mul_upper (t u : Nat) (hu : 0 < u) : t ≤ numParts t u * u := by
  rcases Nat.eq_zero_or_pos t with ht | ht
  · simp [ht]
  · rw [numParts_eq_ceil t u hu]
    have hdm := Nat.div_add_mod t u
    have hmlt : t % u < u := Nat.mod_lt _ hu
    unfold ceilDivSpec
    by_cases hr : t % u = 0
    · rw [if_pos hr]
      have := Nat.mul_comm (t / u) u
      omega
    · rw [if_neg hr]
      have hs := Nat.add_mul (t / u) 1 u
      have ho := Nat.one_mul u
      have := Nat.mul_comm (t / u) u
      omega

/-- C1: For every totalSize ≥ 0 and unitSize > 0, the planning arithmetic
shared by download.py (part split, 10 MiB) and upload.py (chunk split 5 GiB,
part split 20 MiB) produces exactly ceil(totalSize/unitSize) byte ranges;
for totalSize = 0 it produces zero ranges; the ranges are listed in order
(the i-th list element is rangeDl t u i), start at 0, are contiguous,
non-overlapping and nonempty, and the last range ends at totalSize - 1.
The upload loop's half-open chunk ranges are the same ranges with an
exclusive upper bound. -/
theorem planRanges_spec (t u : Nat) (hu : 0 < u) :
    (planRanges t u).length = ceilDivSpec t u
    ∧ (t = 0 → planRanges t u = [])
    ∧ (∀ i, ∀ h : i < (planRanges t u).length,
        (planRanges t u).get ⟨i, h⟩ = rangeDl t u i)
    ∧ (0 < t → (rangeDl t u 0).1 = 0 ∧ (rangeDl t u (numParts t u - 1)).2 = t - 1)
    ∧ (∀ i, i + 1 < numParts t u → (rangeDl t u (i + 1)).1 = (rangeDl t u i).2 + 1)
    ∧ (∀ i, i < numParts t u → (rangeDl t u i).1 ≤ (rangeDl t u i).2)
    ∧ (∀ i j, i < j → j < numParts t u → (rangeDl t u i).2 < (rangeDl t u j).1)
    ∧ planChunks t u = (planRanges t u).map (fun r => (r.1, r.2 + 1)) := by
  refine ⟨?_, ?_, ?_, ?_, ?_, ?_, ?_, ?_⟩
  · simp [planRanges, numParts_eq_ceil t u hu]
  · intro ht
    subst ht
    have h0 : numParts 0 u = 0 := by
      unfold numParts; exact Nat.div_eq_of_lt (by omega)
    simp [planRanges, h0]
  · intro i h
    simp [planRanges, List.get_map, List.get_range]
  · intro ht
    constructor
    · simp [rangeDl]
    · have hpos := numParts_pos t u hu ht
      have hup := numParts_mul_upper t u hu
      have hlow := numParts_mul_lower t u hu ht
      simp only [rangeDl]
      have he : numParts t u - 1 + 1 = numParts t u := by omega
      rw [he]
      omega
  · intro i hi
    have ht : 0 < t := t_pos_of_lt_numParts t u (i + 1) hi
    have h1 : (i + 1) * u ≤ (numParts t u - 1) * u :=
      Nat.mul_le_mul_right u (by omega)
    have h2 := numParts_mul_lower t u hu ht
    have h3 : 0 < (i + 1) * u := Nat.mul_pos (by omega) hu
    simp only [rangeDl]
    omega
  · intro i hi
    have ht : 0 < t := t_pos_of_lt_numParts t u i hi
    have h1 : i * u ≤ (numParts t u - 1) * u := Nat.mul_le_mul_right u (by omega)
    have h2 := numParts_mul_lower t u hu ht
    have hs := Nat.add_mul i 1 u
    have ho := Nat.one_mul u
    simp only [rangeDl]
    omega
  · intro i j hij hj
    have h1 : (i + 1) * u ≤ j * u := Nat.mul_le_mul_right u (by omega)
    have h3 : 0 < (i + 1) * u := Nat.mul_pos (by omega) hu
    simp only [rangeDl]
    omega
  · unfold planChunks planRanges
    rw [numParts_eq_ceil t u hu, List.map_map]
    apply List.map_congr_left
    intro i hi
    rw [List.mem_range] at hi
    rw [← numParts_eq_ceil t u hu] at hi
    have ht : 0 < t := t_pos_of_lt_numParts t u i hi
    have h1 : (i + 1) * u ≤ numParts t u * u := Nat.mul_le_mul_right u (by omega)
    have h2 := numParts_mul_upper t u hu
    have h3 : 0 < (i + 1) * u := Nat.mul_pos (by omega) hu
    simp only [rangeUp, rangeDl, Function.comp]
    have hm : min ((i + 1) * u) t = min ((i + 1) * u - 1) (t - 1) + 1 := by omega
    rw [hm]

/-- Witness for C1 at t = 25 MiB + 1, u = 10 MiB (and the spec.md scenario
t = 26214400, u = 10485760 shape). -/
theorem planRanges_spec_witness :
    (0 : Nat) < 10485760
    ∧ (planRanges 26214400 10485760).length = ceilDivSpec 26214400 10485760 := by
  refine ⟨by norm_num, ?_⟩
  exact (planRanges_spec 26214400 10485760 (by norm_num)).1

/-! ### Wire-format lemmas -/

theorem stripLit_append (l r : List Char) : stripLit l (l ++ r) = some r := by
  induction l with
  | nil => rfl
  | cons c cs ih => simp [stripLit, ih]

theorem stripLit_sound {l r r2 : List Char} (h : stripLit l r = some r2) : r = l ++ r2 := by
  induction l generalizing r with
  | nil =>
    simp only [stripLit] at h
    simp [← Option.some.inj h]
  | cons c cs ih =>
    cases r with
    | nil => simp [stripLit] at h
    | cons d ds =>
      simp only [stripLit] at h
      by_cases hcd : c = d
      · rw [if_pos hcd] at h
        rw [List.cons_append, ← hcd, ih h]
      · rw [if_neg hcd] at h
        simp at h

theorem takeWhile_all_append {p : Char → Bool} {l1 : List Char} (h1 : ∀ a ∈ l1, p a = true)
    {c : Char} (hc : p c = false) (l2 : List Char) :
    (l1 ++ c :: l2).takeWhile p = l1 := by
  induction l1 with
  | nil => simp [List.takeWhile_cons, hc]
  | cons a as ih =>
    have ha := h1 a (by simp)
    simp only [List.cons_append, List.takeWhile_cons, ha, if_true]
    rw [ih (fun x hx => h1 x (by simp [hx]))]

theorem digitChar_toNat {d : Nat} (h : d < 10) : (Nat.digitChar d).toNat = 48 + d := by
  interval_cases d <;> decide

theorem digitChar_isDigit {d : Nat} (h : d < 10) : (Nat.digitChar d).isDigit = true := by
  interval_cases d <;> decide

theorem digitsToNat_append_one (l : List Char) (c : Char) :
    digitsToNat (l ++ [c]) = 10 * digitsToNat l + (c.toNat - 48) := by
  unfold digitsToNat
  rw [List.foldl_append]
  rfl

theorem natDigitsAux_zero (fuel : Nat) : natDigitsAux fuel 0 = [] := by
  cases fuel <;> simp [natDigitsAux]

theorem natDigitsAux_roundtrip (n : Nat) :
    ∀ fuel, n ≤ fuel → digitsToNat (natDigitsAux fuel n) = n := by
  induction n using Nat.strong_induction_on with
  | _ n ih =>
    intro fuel hf
    by_cases hn : n = 0
    · subst hn; rw [natDigitsAux_zero]; rfl
    · have hpos : 0 < n := Nat.pos_of_ne_zero hn
      obtain ⟨f, rfl⟩ : ∃ f, fuel = f + 1 := ⟨fuel - 1, by omega⟩
      rw [show natDigitsAux (f + 1) n = natDigitsAux f (n / 10) ++ [Nat.digitChar (n % 10)] from
        by rw [natDigitsAux, if_neg hn]]
      rw [digitsToNat_append_one]
      have hdiv : n / 10 < n := Nat.div_lt_self hpos (by norm_num)
      rw [ih (n / 10) hdiv f (by omega)]
      have hm : n % 10 < 10 := Nat.mod_lt _ (by norm_num)
      rw [digitChar_toNat hm]
      omega

theorem natDigitsAux_digits (fuel : Nat) :
    ∀ n, ∀ c ∈ natDigitsAux fuel n, c.isDigit = true := by
  induction fuel with
  | zero => intro n c hc; simp [natDigitsAux] at hc
  | succ f ih =>
    intro n c hc
    by_cases hn : n = 0
    · subst hn; simp [natDigitsAux] at hc
    · rw [show natDigitsAux (f + 1) n = natDigitsAux f (n / 10) ++ [Nat.digitChar (n % 10)] from
        by rw [natDigitsAux, if_neg hn]] at hc
      rcases List.mem_append.mp hc with h1 | h1
      · exact ih _ c h1
      · rw [List.mem_singleton] at h1
        subst h1
        exact digitChar_isDigit (Nat.mod_lt _ (by norm_num))

theorem natToDigits_digits (n : Nat) : ∀ c ∈ natToDigits n, c.isDigit = true := by
  unfold natToDigits
  by_cases hn : n = 0
  · rw [if_pos hn]
    intro c hc
    rw [List.mem_singleton] at hc
    subst hc
    decide
  · rw [if_neg hn]
    exact natDigitsAux_digits n n

theorem natToDigits_ne_nil (n : Nat) : natToDigits n ≠ [] := by
  unfold natToDigits
  by_cases hn : n = 0
  · simp [hn]
  · rw [if_neg hn]
    obtain ⟨f, hf⟩ : ∃ f, n = f + 1 := ⟨n - 1, by omega⟩
    rw [hf]
    simp [natDigitsAux]

theorem natToDigits_roundtrip (n : Nat) : digitsToNat (natToDigits n) = n := by
  unfold natToDigits
  by_cases hn : n = 0
  · rw [if_pos hn, hn]; decide
  · rw [if_neg hn]
    exact natDigitsAux_roundtrip n n le_rfl

theorem drop_takeWhile_length (p : Char → Bool) (l : List Char) :
    l.drop (l.takeWhile p).length = l.dropWhile p := by
  induction l with
  | nil => rfl
  | cons a as ih =>
    rw [List.takeWhile_cons, List.dropWhile_cons]
    by_cases hp : p a
    · simp [hp, ih]
    · simp [hp]

theorem matchSuffix_of_shape (K N2 : List Char)
    (hK : ∀ c ∈ K, c.isDigit = true) (hKn : K ≠ [])
    (hN : ∀ c ∈ N2, c.isDigit = true) (hNn : N2 ≠ []) :
    matchSuffix (litChunk ++ (K ++ (litOf ++ (N2 ++ [')'])))) =
      some (digitsToNat K, digitsToNat N2) := by
  have ht1 : (K ++ (litOf ++ (N2 ++ [')']))).takeWhile Char.isDigit = K :=
    takeWhile_all_append hK (by decide) _
  have ht2 : (N2 ++ [')']).takeWhile Char.isDigit = N2 :=
    takeWhile_all_append hN (by decide) _
  unfold matchSuffix
  rw [stripLit_append]
  simp only [Option.some_bind]
  rw [ht1, if_neg hKn, List.drop_left, stripLit_append]
  simp only [Option.some_bind]
  rw [ht2, if_neg hNn, List.drop_left]
  unfold checkClose
  rw [if_pos rfl]

theorem matchSuffix_sound {l : List Char} {a b : Nat} (h : matchSuffix l = some (a, b)) :
    ∃ A B t2, l = litChunk ++ (A ++ (litOf ++ (B ++ ')' :: t2)))
      ∧ A ≠ [] ∧ B ≠ [] ∧ (∀ c ∈ A, c.isDigit = true) ∧ (∀ c ∈ B, c.isDigit = true)
      ∧ (t2 = [] ∨ t2 = ['\n']) := by
  unfold matchSuffix at h
  cases hs1 : stripLit litChunk l with
  | none => rw [hs1] at h; simp at h
  | some r1 =>
    rw [hs1] at h
    simp only [Option.some_bind] at h
    have hAmem : ∀ c ∈ r1.takeWhile Char.isDigit, c.isDigit = true :=
      fun c hc => List.mem_takeWhile_imp hc
    by_cases hA : r1.takeWhile Char.isDigit = []
    · rw [if_pos hA] at h; simp at h
    · rw [if_neg hA] at h
      rw [drop_takeWhile_length] at h
      cases hs2 : stripLit litOf (r1.dropWhile Char.isDigit) with
      | none => rw [hs2] at h; simp at h
      | some r2 =>
        rw [hs2] at h
        simp only [Option.some_bind] at h
        have hBmem : ∀ c ∈ r2.takeWhile Char.isDigit, c.isDigit = true :=
          fun c hc => List.mem_takeWhile_imp hc
        by_cases hB : r2.takeWhile Char.isDigit = []
        · rw [if_pos hB] at h; simp at h
        · rw [if_neg hB] at h
          rw [drop_takeWhile_length] at h
          unfold checkClose at h
          have hl1 := stripLit_sound hs1
          have hl2 := stripLit_sound hs2
          by_cases hc1 : r2.dropWhile Char.isDigit = [')']
          · refine ⟨r1.takeWhile Char.isDigit, r2.takeWhile Char.isDigit, [],
              ?_, hA, hB, hAmem, hBmem, Or.inl rfl⟩
            have hr1 : r1 = (r1.takeWhile Char.isDigit) ++
                (litOf ++ ((r2.takeWhile Char.isDigit) ++ [')'])) :=
              calc r1 = r1.takeWhile Char.isDigit ++ r1.dropWhile Char.isDigit :=
                    (List.takeWhile_append_dropWhile _ _).symm
                _ = r1.takeWhile Char.isDigit ++ (litOf ++ r2) := by rw [hl2]
                _ = r1.takeWhile Char.isDigit ++
                    (litOf ++ (r2.takeWhile Char.isDigit ++ r2.dropWhile Char.isDigit)) := by
                    rw [List.takeWhile_append_dropWhile]
                _ = r1.takeWhile Char.isDigit ++
                    (litOf ++ (r2.takeWhile Char.isDigit ++ [')'])) := by rw [hc1]
            rw [hl1]
            exact congrArg (fun z => litChunk ++ z) hr1
          · by_cases hc2 : r2.dropWhile Char.isDigit = [')', '\n']
            · refine ⟨r1.takeWhile Char.isDigit, r2.takeWhile Char.isDigit, ['\n'],
                ?_, hA, hB, hAmem, hBmem, Or.inr rfl⟩
              have hr1 : r1 = (r1.takeWhile Char.isDigit) ++
                  (litOf ++ ((r2.takeWhile Char.isDigit) ++ [')', '\n'])) :=
                calc r1 = r1.takeWhile Char.isDigit ++ r1.dropWhile Char.isDigit :=
                      (List.takeWhile_append_dropWhile _ _).symm
                  _ = r1.takeWhile Char.isDigit ++ (litOf ++ r2) := by rw [hl2]
                  _ = r1.takeWhile Char.isDigit ++
                      (litOf ++ (r2.takeWhile Char.isDigit ++ r2.dropWhile Char.isDigit)) := by
                      rw [List.takeWhile_append_dropWhile]
                  _ = r1.takeWhile Char.isDigit ++
                      (litOf ++ (r2.takeWhile Char.isDigit ++ [')', '\n'])) := by rw [hc2]
              rw [hl1]
              exact congrArg (fun z => litChunk ++ z) hr1
            · rw [if_neg hc1, if_neg hc2] at h; simp at h

theorem digitRun_unique {xs ys : List Char} {c c2 : Char} {D1 D2 : List Char}
    (h : xs ++ c :: D1 = ys ++ c2 :: D2)
    (hd1 : ∀ a ∈ D1, a.isDigit = true) (hd2 : ∀ a ∈ D2, a.isDigit = true)
    (hc : c.isDigit = false) (hc2 : c2.isDigit = false) :
    xs = ys ∧ c = c2 ∧ D1 = D2 := by
  have h1 : (xs ++ c :: D1).reverse.takeWhile Char.isDigit = D1.reverse := by
    rw [show (xs ++ c :: D1).reverse = D1.reverse ++ c :: xs.reverse from by simp]
    exact takeWhile_all_append (fun a ha => hd1 a (List.mem_reverse.mp ha)) hc _
  have h2 : (ys ++ c2 :: D2).reverse.takeWhile Char.isDigit = D2.reverse := by
    rw [show (ys ++ c2 :: D2).reverse = D2.reverse ++ c2 :: ys.reverse from by simp]
    exact takeWhile_all_append (fun a ha => hd2 a (List.mem_reverse.mp ha)) hc2 _
  rw [h] at h1
  have hD : D1 = D2 := List.reverse_inj.mp (h2.symm.trans h1).symm
  subst hD
  have h3 : (xs ++ [c]) ++ D1 = (ys ++ [c2]) ++ D1 := by
    simpa [List.append_assoc] using h
  have h4 := List.append_cancel_right h3
  have h5 := List.append_inj' h4 (by rfl)
  refine ⟨h5.1, ?_, rfl⟩
  have := h5.2
  simpa using this

theorem matchSuffix_no_early (f2 K N2 : List Char) (hf : f2 ≠ [])
    (hK : ∀ c ∈ K, c.isDigit = true) (hN : ∀ c ∈ N2, c.isDigit = true) :
    matchSuffix (f2 ++ (litChunk ++ (K ++ (litOf ++ (N2 ++ [')']))))) = none := by
  by_contra h
  obtain ⟨⟨a, b⟩, hab⟩ := Option.ne_none_iff_exists'.mp h
  obtain ⟨A, B, t2, hsh, hAne, hBne, hAd, hBd, ht⟩ := matchSuffix_sound hab
  rcases ht with rfl | rfl
  · have e : (f2 ++ litChunk ++ K ++ litOf ++ N2) ++ [')']
        = (litChunk ++ A ++ litOf ++ B) ++ [')'] := by
      simpa [List.append_assoc] using hsh
    have e1 := (List.append_inj' e (by rfl)).1
    have e2 : (f2 ++ litChunk ++ K ++ [' ', 'o', 'f']) ++ ' ' :: N2
        = (litChunk ++ A ++ [' ', 'o', 'f']) ++ ' ' :: B := by
      simpa [List.append_assoc] using e1
    obtain ⟨e3, -, -⟩ := digitRun_unique e2 hN hBd (by decide) (by decide)
    have e5 : (f2 ++ litChunk ++ K) ++ [' ', 'o', 'f'] = (litChunk ++ A) ++ [' ', 'o', 'f'] := by
      simpa [List.append_assoc] using e3
    have e6 := List.append_cancel_right e5
    have e7 : (f2 ++ [' ', '(', 'c', 'h', 'u', 'n', 'k']) ++ ' ' :: K
        = [' ', '(', 'c', 'h', 'u', 'n', 'k'] ++ ' ' :: A := by
      simpa [List.append_assoc] using e6
    obtain ⟨e8, -, -⟩ := digitRun_unique e7 hK hAd (by decide) (by decide)
    have hlen := congrArg List.length e8
    rw [List.length_append] at hlen
    exact hf (List.length_eq_zero.mp (by omega))
  · have e : (f2 ++ litChunk ++ K ++ litOf ++ N2) ++ [')']
        = (litChunk ++ A ++ litOf ++ B ++ [')']) ++ ['\n'] := by
      simpa [List.append_assoc] using hsh
    have hlast := congrArg List.getLast? e
    rw [List.getLast?_concat, List.getLast?_concat] at hlast
    exact absurd (Option.some.inj hlast) (by decide)

theorem parseDescAux_of_match (pre : List Char) {rest : List Char} {x : Nat × Nat}
    (h : matchSuffix rest = some x) :
    parseDescAux pre rest = some (pre.reverse, x.1, x.2) := by
  cases rest with
  | nil => rw [parseDescAux, h, parseStep]
  | cons c l => rw [parseDescAux, h, parseStep]

theorem parseDescAux_roundtrip (f : List Char) (k n : Nat) (hf : '\n' ∉ f) :
    ∀ pre, parseDescAux pre
        (f ++ (litChunk ++ (natToDigits k ++ (litOf ++ (natToDigits n ++ [')']))))) =
      some (pre.reverse ++ f, k, n) := by
  induction f with
  | nil =>
    intro pre
    have hm : matchSuffix
        (litChunk ++ (natToDigits k ++ (litOf ++ (natToDigits n ++ [')'])))) = some (k, n) := by
      rw [matchSuffix_of_shape _ _ (natToDigits_digits k) (natToDigits_ne_nil k)
        (natToDigits_digits n) (natToDigits_ne_nil n),
        natToDigits_roundtrip, natToDigits_roundtrip]
    rw [List.nil_append, parseDescAux_of_match _ hm]
    simp
  | cons c f2 ih =>
    intro pre
    have hc : ¬ c = '\n' := by
      intro hcn
      exact hf (by simp [hcn])
    have hfa : '\n' ∉ f2 := fun hmem => hf (List.mem_cons_of_mem _ hmem)
    have hnm := matchSuffix_no_early (c :: f2) (natToDigits k) (natToDigits n)
      (by simp) (natToDigits_digits k) (natToDigits_digits n)
    rw [List.cons_append] at hnm ⊢
    rw [parseDescAux, hnm, parseStep, if_neg hc, ih hfa (c :: pre)]
    simp

theorem parseDesc_roundtrip (f : List Char) (k n : Nat) (hf : '\n' ∉ f) :
    parseDesc (buildDesc f k n) = some (f, k, n) := by
  unfold parseDesc buildDesc
  have h := parseDescAux_roundtrip f k n hf []
  rw [show f ++ litChunk ++ natToDigits k ++ litOf ++ natToDigits n ++ [')']
    = f ++ (litChunk ++ (natToDigits k ++ (litOf ++ (natToDigits n ++ [')']))))
    from by simp [List.append_assoc]]
  rw [h]
  simp

/-! ### Generic list helpers -/

theorem sum_map_zero {α : Type} (l : List α) : (l.map (fun _ => (0 : Nat))).sum = 0 := by
  induction l with
  | nil => rfl
  | cons a as ih => simp [ih]

theorem all_congr_mem {α : Type} {l : List α} {p q : α → Bool}
    (h : ∀ a ∈ l, p a = q a) : l.all p = l.all q := by
  induction l with
  | nil => rfl
  | cons a as ih =>
    simp only [List.all_cons]
    rw [h a (by simp), ih (fun x hx => h x (by simp [hx]))]

theorem any_eq_false_of_all {α : Type} {l : List α} {p : α → Bool}
    (h : ∀ a ∈ l, p a = false) : l.any p = false := by
  induction l with
  | nil => rfl
  | cons a as ih =>
    simp only [List.any_cons]
    rw [h a (by simp), ih (fun x hx => h x (by simp [hx]))]
    rfl

theorem filter_erase_not {α : Type} [DecidableEq α] (l : List α) (x : α) (p : α → Bool)
    (hp : p x = false) : (l.erase x).filter p = l.filter p := by
  induction l with
  | nil => rfl
  | cons a as ih =>
    rw [List.erase_cons]
    by_cases hax : a = x
    · subst hax
      rw [if_pos (by simp), List.filter_cons, hp]
      simp
    · rw [if_neg (by simp [hax]), List.filter_cons, List.filter_cons, ih]

/-! ### C3: reassembly atomicity -/

/-- C3: For every ReassemblyGroup, concatenation into the final file
happens only if every expected fragment's temporary file exists on disk
(reconstructed iff all paths exist); when any fragment is missing, the
filesystem is unchanged (no reconstruction, no fragment deleted), no tag
update is produced for the group, and the group is reported for a later
retry. -/
theorem processGroup_atomic (dlFolder nm : List Char) (g : List Candidate)
    (disk : List Char → Bool) :
    ((processGroup dlFolder nm g disk).reconstructed = true ↔
      ∀ c ∈ g, disk c.path = true)
    ∧ ((∃ c ∈ g, disk c.path = false) →
        (processGroup dlFolder nm g disk).disk = disk
        ∧ (processGroup dlFolder nm g disk).reconstructed = false
        ∧ (processGroup dlFolder nm g disk).reported = true
        ∧ (processGroup dlFolder nm g disk).tagPids = []) := by
  unfold processGroup
  by_cases hall : ((g.map (fun c => c.path)).all disk) = true
  · rw [if_pos hall]
    constructor
    · simp only [true_iff]
      intro c hc
      exact List.all_eq_true.mp hall _ (List.mem_map.mpr ⟨c, hc, rfl⟩)
    · intro ⟨c, hc, hmiss⟩
      have := List.all_eq_true.mp hall _ (List.mem_map.mpr ⟨c, hc, rfl⟩)
      rw [this] at hmiss
      exact absurd hmiss (by simp)
  · rw [if_neg hall]
    constructor
    · constructor
      · intro h
        exact absurd h (by simp)
      · intro hforall
        refine absurd (List.all_eq_true.mpr ?_) hall
        intro p hp
        obtain ⟨c, hc, rfl⟩ := List.mem_map.mp hp
        exact hforall c hc
    · intro _
      exact ⟨rfl, rfl, rfl, rfl⟩

/-- Witness for C3: a group expecting fragments 1 and 3 where only 1
exists is left untouched and reported. -/
theorem processGroup_atomic_witness :
    (processGroup ['d'] ['v']
        [⟨1, ['v'], 1, 3, ['a'], 5⟩, ⟨3, ['v'], 3, 3, ['b'], 5⟩]
        (fun p => p == ['a'])).reconstructed = false
    ∧ (processGroup ['d'] ['v']
        [⟨1, ['v'], 1, 3, ['a'], 5⟩, ⟨3, ['v'], 3, 3, ['b'], 5⟩]
        (fun p => p == ['a'])).reported = true
    ∧ (processGroup ['d'] ['v']
        [⟨1, ['v'], 1, 3, ['a'], 5⟩, ⟨3, ['v'], 3, 3, ['b'], 5⟩]
        (fun p => p == ['a'])).disk = (fun p => p == ['a']) := by
  have h := (processGroup_atomic ['d'] ['v']
      [⟨1, ['v'], 1, 3, ['a'], 5⟩, ⟨3, ['v'], 3, 3, ['b'], 5⟩]
      (fun p => p == ['a'])).2
      ⟨⟨3, ['v'], 3, 3, ['b'], 5⟩, by decide, by decide⟩
  exact ⟨h.2.1, h.2.2.1, h.1⟩

/-! ### C8: tag update no-op -/

/-- C8: update_page_tags computes the target label set by removing the
pending tag and adding the completed tag only if absent, and issues the
network mutation only when the before and after (id, name) pair sets
differ; in particular, when the current tags already contain the completed
tag and lack the pending tag, the computed list equals the current list
and no network call is made. -/
theorem tagUpdateNoop (current : List Tag) (dlName : String)
    (hhas : ∃ t ∈ current, t.name = some dlName)
    (hnop : ∀ t ∈ current, t.name ≠ some pendingTagName) :
    computeNewTags current dlName = current
    ∧ tagUpdateCallsApi current dlName = false := by
  have hfil : current.filter (fun t => t.name != some pendingTagName) = current :=
    List.filter_eq_self.mpr (fun t ht => by simp [hnop t ht])
  have hany : (current.any (fun t => t.name == some dlName)) = true := by
    obtain ⟨t, ht, hn⟩ := hhas
    exact List.any_eq_true.mpr ⟨t, ht, by simp [hn]⟩
  have hnew : computeNewTags current dlName = current := by
    unfold computeNewTags
    rw [hfil, if_pos hany]
  refine ⟨hnew, ?_⟩
  unfold tagUpdateCallsApi
  rw [hnew]
  simp

/-- Witness for C8: a record already carrying only the completed tag is
left unchanged and triggers no API call. -/
theorem tagUpdateNoop_witness :
    computeNewTags [⟨some "i1", some "done"⟩] "done" = [⟨some "i1", some "done"⟩]
    ∧ tagUpdateCallsApi [⟨some "i1", some "done"⟩] "done" = false :=
  tagUpdateNoop [⟨some "i1", some "done"⟩] "done"
    ⟨⟨some "i1", some "done"⟩, by decide, rfl⟩ (by decide)

/-! ### C10: concatenation failure destroys the downloaded parts -/

/-- C10: When every part of a download succeeded but concatenating them
into the final file raises an IOError, download_file_multipart returns
False and its finally clause still deletes the entire .parts temporary
directory - the downloaded parts are destroyed rather than preserved
(in contrast to incomplete reassembly groups, which are kept). -/
theorem concatFailureDeletesParts (ts : Nat) (partOk : Nat → Bool)
    (hp : ∀ i, i < numParts ts partSizeDl → partOk i = true) :
    (dlFile false ts partOk false).ok = false
    ∧ (dlFile false ts partOk false).tempCreated = true
    ∧ (dlFile false ts partOk false).tempDeleted = true
    ∧ (dlFile false ts partOk false).finalComplete = false := by
  have hall : (List.range (numParts ts partSizeDl)).all partOk = true :=
    List.all_eq_true.mpr (fun i hi => hp i (List.mem_range.mp hi))
  simp [dlFile, hall]

/-- Witness for C10 at a one-part download whose concatenation fails. -/
theorem concatFailureDeletesParts_witness :
    (dlFile false 5 (fun _ => true) false).ok = false
    ∧ (dlFile false 5 (fun _ => true) false).tempDeleted = true :=
  ⟨(concatFailureDeletesParts 5 (fun _ => true) (fun _ _ => rfl)).1,
   (concatFailureDeletesParts 5 (fun _ => true) (fun _ _ => rfl)).2.2.1⟩

/-! ### C5: idempotent skip of already-present files -/

/-- C5: Running the download phase against candidates whose target files
all already exist on disk performs zero redundant downloads: every task is
skipped entirely (no part request started, no temporary directory created),
counted as already successful, contributes its full size to progress
immediately, and the download phase leaves the filesystem unchanged. -/
theorem downloadIdempotentSkip (dlF : List Char) (disk0 : List Char → Bool) (env : DlEnv)
    (cands : List Candidate)
    (h : ∀ c ∈ cands, 0 < c.size ∧ disk0 c.path = true) :
    (runFromCands dlF disk0 env cands).results
      = cands.map (fun c => (c, ⟨true, c.size, 0, false, false, false⟩))
    ∧ (runFromCands dlF disk0 env cands).successPids = cands.map (fun c => c.pid)
    ∧ (((runFromCands dlF disk0 env cands).results.map
        (fun r => r.2.partsStarted)).sum = 0)
    ∧ (((runFromCands dlF disk0 env cands).results.map
        (fun r => r.2.progress)).sum = (cands.map (fun c => c.size)).sum)
    ∧ (∀ p, diskAfterDl disk0 env cands p = disk0 p) := by
  have hatt : attemptedTasks cands = cands :=
    List.filter_eq_self.mpr (fun c hc => by simp [(h c hc).1])
  have hres : downloadResults disk0 env cands
      = cands.map (fun c => (c, (⟨true, c.size, 0, false, false, false⟩ : DlResult))) := by
    unfold downloadResults
    rw [hatt]
    apply List.map_congr_left
    intro c hc
    simp [runCand, dlFile, (h c hc).2]
  have hsucc : (runFromCands dlF disk0 env cands).successPids = cands.map (fun c => c.pid) := by
    simp only [runFromCands, hres]
    rw [List.filter_map]
    have : (cands.filter ((fun r : Candidate × DlResult => r.2.ok) ∘
        (fun c => (c, (⟨true, c.size, 0, false, false, false⟩ : DlResult))))) = cands :=
      List.filter_eq_self.mpr (fun c _ => rfl)
    rw [this, List.map_map, List.map_map]
    rfl
  refine ⟨by simp only [runFromCands]; exact hres, hsucc, ?_, ?_, ?_⟩
  · simp only [runFromCands, hres, List.map_map]
    have : ((fun r : Candidate × DlResult => r.2.partsStarted) ∘
        (fun c : Candidate => (c, (⟨true, c.size, 0, false, false, false⟩ : DlResult))))
        = fun _ => 0 := rfl
    rw [this, sum_map_zero]
  · simp only [runFromCands, hres, List.map_map]
    rfl
  · intro p
    unfold diskAfterDl
    have hany : (cands.any fun c => c.path == p && dlWroteB disk0 env c) = false := by
      apply any_eq_false_of_all
      intro c hc
      have : dlWroteB disk0 env c = false := by
        simp [dlWroteB, (h c hc).2]
      simp [this]
    rw [hany, Bool.or_false]

/-- Witness for C5: one candidate whose final file is already on disk. -/
theorem downloadIdempotentSkip_witness :
    (runFromCands ['d'] (fun _ => true) ⟨fun _ _ => true, fun _ => true⟩
        [⟨1, ['v'], 1, 1, ['p'], 7⟩]).successPids = [1]
    ∧ (((runFromCands ['d'] (fun _ => true) ⟨fun _ _ => true, fun _ => true⟩
        [⟨1, ['v'], 1, 1, ['p'], 7⟩]).results.map (fun r => r.2.partsStarted)).sum = 0) := by
  have h := downloadIdempotentSkip ['d'] (fun _ => true) ⟨fun _ _ => true, fun _ => true⟩
      [⟨1, ['v'], 1, 1, ['p'], 7⟩] (by decide)
  exact ⟨h.2.1, h.2.2.1⟩

/-! ### C2: wire-format round trip and skip of non-matching records -/

/-- C2 (amended): For every original filename f free of newline characters
and every chunk index k in 1..N, the description written at upload,
"f (chunk k of N)", is matched by the download parser and parsed back to
exactly (f, k, N); and a page whose description does not match the pattern
contributes no candidate - the rest of the listing is unaffected (skipped,
not an error). -/
theorem descWireFormat (f : List Char) (k n : Nat) (hf : '\n' ∉ f)
    (hk : 1 ≤ k) (hkn : k ≤ n) :
    parseDesc (buildDesc f k n) = some (f, k, n)
    ∧ (∀ dlF tmpD : List Char, ∀ l1 l2 : List RawPage, ∀ p : RawPage, ∀ d : List Char,
        p.desc = some d → parseDesc d = none →
        listCandidates dlF tmpD (l1 ++ p :: l2) = listCandidates dlF tmpD (l1 ++ l2)) := by
  constructor
  · exact parseDesc_roundtrip f k n hf
  · intro dlF tmpD l1 l2 p d hd hp
    have hnone : candOf dlF tmpD p = none := by
      unfold candOf
      rw [hd]
      simp [hp]
    unfold listCandidates
    rw [List.filterMap_append, List.filterMap_append]
    congr 1
    rw [List.filterMap_cons_none hnone]

/-- Counterexample for C2 as stated: for the legal filename "a\nb.mp4"
(filenames may contain newlines) the written description fails to match
the download pattern at all, so it is not parsed back to (f, k, N). -/
theorem descWireFormat_counterexample :
    parseDesc (buildDesc ['a', '\n', 'b', '.', 'm', 'p', '4'] 1 2) = none
    ∧ ¬ parseDesc (buildDesc ['a', '\n', 'b', '.', 'm', 'p', '4'] 1 2)
        = some (['a', '\n', 'b', '.', 'm', 'p', '4'], 1, 2) := by
  constructor
  · decide
  · decide

/-- Witness for C2 on the filename "v.mp4", chunk 2 of 3, plus a skipped
page with an unparseable description. -/
theorem descWireFormat_witness :
    parseDesc (buildDesc ['v', '.', 'm', 'p', '4'] 2 3) = some (['v', '.', 'm', 'p', '4'], 2, 3)
    ∧ listCandidates ['d'] ['t'] [⟨9, some ['x'], true, some (some 5)⟩]
        = listCandidates ['d'] ['t'] [] := by
  refine ⟨(descWireFormat ['v', '.', 'm', 'p', '4'] 2 3 (by decide) (by decide) (by decide)).1, ?_⟩
  exact (descWireFormat ['v', '.', 'm', 'p', '4'] 2 3 (by decide) (by decide) (by decide)).2
    ['d'] ['t'] [] [] ⟨9, some ['x'], true, some (some 5)⟩ ['x'] rfl (by decide)

/-! ### C4: upload failure containment -/

theorem runChunk_fail_state (env : UEnv) (n i : Nat) (st : UState)
    (h : (runChunk env n i st).2 = false) :
    ∃ s, (runChunk env n i st).1.failed = some (i, s)
      ∧ (runChunk env n i st).1.moved = st.moved
      ∧ (runChunk env n i st).1.attempted = st.attempted
      ∧ (s ≠ UStep.moveFile → (runChunk env n i st).1.records = st.records) := by
  unfold runChunk at h ⊢
  by_cases h1 : env.ok i UStep.createSession = true
  · rw [if_pos h1] at h ⊢
    by_cases h2 : env.ok i UStep.sendParts = true
    · rw [if_pos h2] at h ⊢
      by_cases h3 : env.ok i UStep.complete = true
      · rw [if_pos h3] at h ⊢
        by_cases h4 : env.ok i UStep.createPage = true
        · rw [if_pos h4] at h ⊢
          by_cases h5 : i = n
          · rw [if_pos h5] at h ⊢
            by_cases h6 : env.ok i UStep.moveFile = true
            · rw [if_pos h6] at h
              simp at h
            · rw [if_neg h6] at h ⊢
              exact ⟨UStep.moveFile, rfl, rfl, rfl, fun hne => absurd rfl hne⟩
          · rw [if_neg h5] at h
            simp at h
        · rw [if_neg h4] at h ⊢
          exact ⟨UStep.createPage, rfl, rfl, rfl, fun _ => rfl⟩
      · rw [if_neg h3] at h ⊢
        exact ⟨UStep.complete, rfl, rfl, rfl, fun _ => rfl⟩
    · rw [if_neg h2] at h ⊢
      exact ⟨UStep.sendParts, rfl, rfl, rfl, fun _ => rfl⟩
  · rw [if_neg h1] at h ⊢
    exact ⟨UStep.createSession, rfl, rfl, rfl, fun _ => rfl⟩

theorem runChunk_ok_state (env : UEnv) (n i : Nat) (st : UState)
    (h : (runChunk env n i st).2 = true) :
    (runChunk env n i st).1.failed = st.failed
    ∧ (runChunk env n i st).1.attempted = st.attempted
    ∧ (runChunk env n i st).1.records = st.records ++ [i]
    ∧ (runChunk env n i st).1.moved = (st.moved || decide (i = n)) := by
  unfold runChunk at h ⊢
  by_cases h1 : env.ok i UStep.createSession = true
  · rw [if_pos h1] at h ⊢
    by_cases h2 : env.ok i UStep.sendParts = true
    · rw [if_pos h2] at h ⊢
      by_cases h3 : env.ok i UStep.complete = true
      · rw [if_pos h3] at h ⊢
        by_cases h4 : env.ok i UStep.createPage = true
        · rw [if_pos h4] at h ⊢
          by_cases h5 : i = n
          · rw [if_pos h5] at h ⊢
            by_cases h6 : env.ok i UStep.moveFile = true
            · rw [if_pos h6]
              exact ⟨rfl, rfl, rfl, by simp [h5]⟩
            · rw [if_neg h6] at h
              simp at h
          · rw [if_neg h5] at h ⊢
            exact ⟨rfl, rfl, rfl, by simp [h5]⟩
        · rw [if_neg h4] at h
          simp at h
      · rw [if_neg h3] at h
        simp at h
    · rw [if_neg h2] at h
      simp at h
  · rw [if_neg h1] at h
    simp at h

theorem runFrom_fail (env : UEnv) (n : Nat) :
    ∀ fuel i st j s, i + fuel = n + 1 → st.moved = false → st.failed = none →
    (∀ a ∈ st.attempted, a < i) → (∀ a ∈ st.records, a < i) →
    (runFrom env n fuel i st).failed = some (j, s) →
    ((∀ a ∈ (runFrom env n fuel i st).attempted, a ≤ j)
      ∧ (runFrom env n fuel i st).moved = false
      ∧ (s ≠ UStep.moveFile → j ∉ (runFrom env n fuel i st).records)) := by
  intro fuel
  induction fuel with
  | zero =>
    intro i st j s _ _ hfn _ _ hfail
    rw [runFrom] at hfail
    rw [hfn] at hfail
    simp at hfail
  | succ f ih =>
    intro i st j s harith hmv hfn hatt hrec hfail
    rw [runFrom] at hfail ⊢
    by_cases hr : (runChunk env n i { st with attempted := st.attempted ++ [i] }).2 = true
    · rw [if_pos hr] at hfail ⊢
      obtain ⟨hf2, ha2, hr2, hm2⟩ :=
        runChunk_ok_state env n i { st with attempted := st.attempted ++ [i] } hr
      by_cases hin : i = n
      · have hf0 : f = 0 := by omega
        subst hf0
        rw [runFrom] at hfail
        rw [hf2] at hfail
        simp [hfn] at hfail
      · refine ih (i + 1) _ j s (by omega) ?_ ?_ ?_ ?_ hfail
        · rw [hm2, hmv]
          simp [hin]
        · rw [hf2]
          exact hfn
        · rw [ha2]
          intro a ha
          rcases List.mem_append.mp ha with h1 | h1
          · have := hatt a h1
            omega
          · rw [List.mem_singleton] at h1
            omega
        · rw [hr2]
          intro a ha
          rcases List.mem_append.mp ha with h1 | h1
          · have := hrec a h1
            omega
          · rw [List.mem_singleton] at h1
            omega
    · rw [if_neg hr] at hfail ⊢
      obtain ⟨s', hfs, hmv2, hat2, hrec2⟩ :=
        runChunk_fail_state env n i { st with attempted := st.attempted ++ [i] }
          (by revert hr; cases (runChunk env n i { st with attempted := st.attempted ++ [i] }).2 <;> simp)
      have heq : (i, s') = (j, s) := Option.some.inj (hfs.symm.trans hfail)
      have hj : i = j := congrArg Prod.fst heq
      have hs : s' = s := congrArg Prod.snd heq
      refine ⟨?_, ?_, ?_⟩
      · rw [hat2]
        intro a ha
        rcases List.mem_append.mp ha with h1 | h1
        · have := hatt a h1
          omega
        · rw [List.mem_singleton] at h1
          omega
      · rw [hmv2]
        exact hmv
      · intro hsne
        rw [hrec2 (by rw [hs]; exact hsne)]
        intro hmem
        have := hrec j hmem
        omega

theorem runFrom_moved (env : UEnv) (n : Nat) :
    ∀ fuel i st, i + fuel = n + 1 → st.moved = false → st.failed = none →
    ((runFrom env n fuel i st).moved = true ↔
      (0 < fuel ∧ (runFrom env n fuel i st).failed = none)) := by
  intro fuel
  induction fuel with
  | zero =>
    intro i st _ hmv _
    rw [runFrom, hmv]
    simp
  | succ f ih =>
    intro i st harith hmv hfn
    rw [runFrom]
    by_cases hr : (runChunk env n i { st with attempted := st.attempted ++ [i] }).2 = true
    · rw [if_pos hr]
      obtain ⟨hf2, _, _, hm2⟩ :=
        runChunk_ok_state env n i { st with attempted := st.attempted ++ [i] } hr
      by_cases hin : i = n
      · have hf0 : f = 0 := by omega
        subst hf0
        rw [runFrom, hm2, hf2]
        simp [hin, hmv, hfn]
      · have hfpos : 0 < f := by omega
        have hmv2 : (runChunk env n i { st with attempted := st.attempted ++ [i] }).1.moved
            = false := by
          rw [hm2]
          simp [hin, hmv]
        have hfn2 : (runChunk env n i { st with attempted := st.attempted ++ [i] }).1.failed
            = none := by
          rw [hf2]
          exact hfn
        rw [ih (i + 1) _ (by omega) hmv2 hfn2]
        constructor
        · rintro ⟨-, h2⟩
          exact ⟨by omega, h2⟩
        · rintro ⟨-, h2⟩
          exact ⟨hfpos, h2⟩
    · rw [if_neg hr]
      obtain ⟨s', hfs, hmv2, -, -⟩ :=
        runChunk_fail_state env n i { st with attempted := st.attempted ++ [i] }
          (by revert hr; cases (runChunk env n i { st with attempted := st.attempted ++ [i] }).2 <;> simp)
      rw [hfs, hmv2]
      simp [hmv]

/-- C4 (amended): If any step of processing chunk j of a file fails (an
exception anywhere in the per-chunk try block), the remaining chunks are
not attempted (every attempted chunk index is at most j) and the file is
never moved out of the source folder; when the failing step is not the
final file move itself, no remote record exists for chunk j (a failure in
the move - possible only for the last chunk, after its record was created -
leaves that record in place).  The move to the completed folder succeeds
exactly when the file has at least one chunk and no step of any chunk,
including the final move, fails. -/
theorem uploadFailureContainment (env : UEnv) (n : Nat) :
    (∀ j s, (processFile env n).failed = some (j, s) →
      ((∀ a ∈ (processFile env n).attempted, a ≤ j)
        ∧ (processFile env n).moved = false
        ∧ (s ≠ UStep.moveFile → j ∉ (processFile env n).records)))
    ∧ ((processFile env n).moved = true ↔
        ((processFile env n).failed = none ∧ 0 < n)) := by
  constructor
  · intro j s h
    exact runFrom_fail env n n 1 initUState j s (by omega) rfl rfl
      (by intro a ha; simp [initUState] at ha) (by intro a ha; simp [initUState] at ha) h
  · have h := runFrom_moved env n n 1 initUState (by omega) rfl rfl
    unfold processFile
    rw [h]
    constructor
    · rintro ⟨h1, h2⟩
      exact ⟨h2, h1⟩
    · rintro ⟨h1, h2⟩
      exact ⟨h2, h1⟩

/-- Counterexample for C4 as stated: with one chunk whose record creation
succeeds and whose file move then raises, the chunk "fails" (an exception
was raised while processing it) yet a remote record for it exists. -/
theorem uploadFailureContainment_counterexample :
    (processFile ⟨fun i s => !(i == 1 && s == UStep.moveFile)⟩ 1).failed
      = some (1, UStep.moveFile)
    ∧ 1 ∈ (processFile ⟨fun i s => !(i == 1 && s == UStep.moveFile)⟩ 1).records
    ∧ (processFile ⟨fun i s => !(i == 1 && s == UStep.moveFile)⟩ 1).moved = false := by
  refine ⟨?_, ?_, ?_⟩ <;> decide

/-- Witness for C4: chunk 2 of 3 failing at the part-send step stops the
file with no record for chunk 2 and no move. -/
theorem uploadFailureContainment_witness :
    (processFile ⟨fun i s => !(i == 2 && s == UStep.sendParts)⟩ 3).moved = false
    ∧ 2 ∉ (processFile ⟨fun i s => !(i == 2 && s == UStep.sendParts)⟩ 3).records := by
  have h := (uploadFailureContainment ⟨fun i s => !(i == 2 && s == UStep.sendParts)⟩ 3).1
    2 UStep.sendParts (by decide)
  exact ⟨h.2.1, h.2.2 (by decide)⟩

/-! ### C6: fragment concatenation order -/

theorem natDigitsAux_one (fuel m : Nat) (h1 : 1 ≤ m) (h9 : m < 10) (hf : m ≤ fuel) :
    natDigitsAux fuel m = [Nat.digitChar m] := by
  obtain ⟨f, rfl⟩ : ∃ f, fuel = f + 1 := ⟨fuel - 1, by omega⟩
  rw [show natDigitsAux (f + 1) m = natDigitsAux f (m / 10) ++ [Nat.digitChar (m % 10)] from by
    rw [natDigitsAux, if_neg (by omega)]]
  rw [show m / 10 = 0 from by omega, natDigitsAux_zero, show m % 10 = m from by omega]
  rfl

theorem natDigitsAux_two (fuel m : Nat) (h1 : 10 ≤ m) (h9 : m < 100) (hf : m ≤ fuel) :
    natDigitsAux fuel m = [Nat.digitChar (m / 10), Nat.digitChar (m % 10)] := by
  obtain ⟨f, rfl⟩ : ∃ f, fuel = f + 1 := ⟨fuel - 1, by omega⟩
  rw [show natDigitsAux (f + 1) m = natDigitsAux f (m / 10) ++ [Nat.digitChar (m % 10)] from by
    rw [natDigitsAux, if_neg (by omega)]]
  rw [natDigitsAux_one f (m / 10) (by omega) (by omega) (by omega)]
  rfl

theorem natDigitsAux_three (fuel m : Nat) (h1 : 100 ≤ m) (h9 : m < 1000) (hf : m ≤ fuel) :
    natDigitsAux fuel m =
      [Nat.digitChar (m / 100), Nat.digitChar (m / 10 % 10), Nat.digitChar (m % 10)] := by
  obtain ⟨f, rfl⟩ : ∃ f, fuel = f + 1 := ⟨fuel - 1, by omega⟩
  rw [show natDigitsAux (f + 1) m = natDigitsAux f (m / 10) ++ [Nat.digitChar (m % 10)] from by
    rw [natDigitsAux, if_neg (by omega)]]
  rw [natDigitsAux_two f (m / 10) (by omega) (by omega) (by omega)]
  rw [Nat.div_div_eq_div_mul]
  norm_num

theorem pad3_eq_triple (k : Nat) (hk : k ≤ 999) :
    pad3 k = [Nat.digitChar (k / 100), Nat.digitChar (k / 10 % 10), Nat.digitChar (k % 10)] := by
  unfold pad3 natToDigits
  by_cases h0 : k = 0
  · subst h0
    decide
  · rw [if_neg h0]
    by_cases h10 : k < 10
    · rw [natDigitsAux_one k k (by omega) h10 le_rfl]
      rw [show k / 100 = 0 from by omega, show k / 10 % 10 = 0 from by omega,
        show k % 10 = k from by omega]
      rfl
    · by_cases h100 : k < 100
      · rw [natDigitsAux_two k k (by omega) h100 le_rfl]
        rw [show k / 100 = 0 from by omega, show k / 10 % 10 = k / 10 from by omega]
        rfl
      · rw [natDigitsAux_three k k (by omega) (by omega) le_rfl]
        rfl

theorem digitChar_lt_digitChar {a b : Nat} (ha : a < 10) (hb : b < 10) (h : a < b) :
    Nat.digitChar a < Nat.digitChar b := by
  interval_cases a <;> interval_cases b <;> revert h <;> decide

theorem pad3_lt {i j : Nat} (hi : i ≤ 999) (hj : j ≤ 999) (hij : i < j) :
    pathLt (pad3 i) (pad3 j) := by
  rw [pad3_eq_triple i hi, pad3_eq_triple j hj]
  rcases Nat.lt_trichotomy (i / 100) (j / 100) with h2 | h2 | h2
  · exact List.Lex.rel (digitChar_lt_digitChar (by omega) (by omega) h2)
  · rw [h2]
    rcases Nat.lt_trichotomy (i / 10 % 10) (j / 10 % 10) with h1 | h1 | h1
    · exact List.Lex.cons (List.Lex.rel (digitChar_lt_digitChar (by omega) (by omega) h1))
    · rw [h1]
      have h0 : i % 10 < j % 10 := by omega
      exact List.Lex.cons (List.Lex.cons (List.Lex.rel
        (digitChar_lt_digitChar (by omega) (by omega) h0)))
    · exfalso; omega
  · exfalso; omega

theorem lex_append_left {a b : List Char} (p : List Char) (h : pathLt a b) :
    pathLt (p ++ a) (p ++ b) := by
  induction p with
  | nil => exact h
  | cons c cs ih => exact List.Lex.cons ih

theorem sortPaths_map_pad3 (pre : List Char) (ks : List Nat) (h : ∀ k ∈ ks, k ≤ 999) :
    sortPaths (ks.map (fun k => pre ++ pad3 k)) = (sortNat ks).map (fun k => pre ++ pad3 k) := by
  have hperm1 : (sortPaths (ks.map (fun k => pre ++ pad3 k))).Perm
      ((sortNat ks).map (fun k => pre ++ pad3 k)) := by
    have p1 := List.perm_insertionSort pathLe (ks.map (fun k => pre ++ pad3 k))
    have p2 := ((List.perm_insertionSort (· ≤ ·) ks).symm).map (fun k => pre ++ pad3 k)
    exact p1.trans p2
  have hs1 : List.Sorted pathLe (sortPaths (ks.map (fun k => pre ++ pad3 k))) :=
    List.sorted_insertionSort pathLe _
  have hsN : List.Sorted (· ≤ ·) (sortNat ks) := List.sorted_insertionSort _ ks
  have hmem : ∀ k ∈ sortNat ks, k ≤ 999 := fun k hk =>
    h k ((List.perm_insertionSort (· ≤ ·) ks).mem_iff.mp hk)
  have hs2 : List.Sorted pathLe ((sortNat ks).map (fun k => pre ++ pad3 k)) := by
    refine List.pairwise_map.mpr (List.Pairwise.imp_of_mem ?_ hsN)
    intro a b ha hb hab
    rcases Nat.lt_or_ge a b with hlt | hge
    · exact Or.inl (lex_append_left pre (pad3_lt (hmem a ha) (hmem b hb) hlt))
    · have hab2 : a = b := Nat.le_antisymm hab hge
      exact Or.inr (by rw [hab2])
  exact List.eq_of_perm_of_sorted hperm1 hs1 hs2

/-- C6: For a reassembly group's fragment paths, built as
directory ++ original ++ ".part" ++ zero-padded 3-digit chunk index, the
list sorted lexicographically by path (what reconstruct_file_from_chunks
does before concatenating) equals the list ordered by numeric chunk index,
for indices within the fixed three-digit width (k ≤ 999) - so
reconstruction concatenates fragments in ascending chunk-index order. -/
theorem fragmentConcatOrder (dir f : List Char) (ks : List Nat) (h : ∀ k ∈ ks, k ≤ 999) :
    sortPaths (ks.map (fun k => dir ++ chunkFileName f k))
      = (sortNat ks).map (fun k => dir ++ chunkFileName f k) := by
  have he : ∀ k : Nat, dir ++ chunkFileName f k = (dir ++ (f ++ litPart)) ++ pad3 k := by
    intro k
    simp [chunkFileName, List.append_assoc]
  simp only [he]
  exact sortPaths_map_pad3 (dir ++ (f ++ litPart)) ks h

/-- Witness for C6 with indices [2, 1, 10]. -/
theorem fragmentConcatOrder_witness :
    sortPaths ([2, 1, 10].map (fun k => ['t', '/'] ++ chunkFileName ['v'] k))
      = (sortNat [2, 1, 10]).map (fun k => ['t', '/'] ++ chunkFileName ['v'] k) :=
  fragmentConcatOrder ['t', '/'] ['v'] [2, 1, 10] (by decide)

/-! ### Pipeline lemmas for C7 and C9 -/

theorem any_path_eq (cands : List Candidate) (c : Candidate) (hc : c ∈ cands)
    (hinj : ∀ a b, a ∈ cands → b ∈ cands → a.path = b.path → a = b) (w : Candidate → Bool) :
    (cands.any fun d => d.path == c.path && w d) = w c := by
  cases hwc : w c with
  | true => exact List.any_eq_true.mpr ⟨c, hc, by simp [hwc]⟩
  | false =>
    apply any_eq_false_of_all
    intro d hd
    by_cases hdc : d.path = c.path
    · have hdceq : d = c := hinj d c hd hc hdc
      subst hdceq
      simp [hwc]
    · simp [hdc]

theorem diskAfterDl_at (disk0 : List Char → Bool) (env : DlEnv) (cands : List Candidate)
    (c : Candidate) (hc : c ∈ cands)
    (hinj : ∀ a b, a ∈ cands → b ∈ cands → a.path = b.path → a = b) :
    diskAfterDl disk0 env cands c.path = (disk0 c.path || dlWroteB disk0 env c) := by
  unfold diskAfterDl
  rw [any_path_eq cands c hc hinj (dlWroteB disk0 env)]

theorem processGroup_disk_other (dlF nm : List Char) (g : List Candidate)
    (disk : List Char → Bool) (p : List Char)
    (hp : ¬ p ∈ g.map (fun c => c.path)) (hnc : ¬ (p = dlF ++ nm)) :
    (processGroup dlF nm g disk).disk p = disk p := by
  unfold processGroup
  by_cases hall : ((g.map (fun c => c.path)).all disk) = true
  · rw [if_pos hall]
    simp [hp, hnc]
  · rw [if_neg hall]

theorem processGroup_disk_false (dlF nm : List Char) (g : List Candidate)
    (disk : List Char → Bool) (p : List Char) (hd : disk p = false)
    (hnc : ¬ (p = dlF ++ nm)) :
    (processGroup dlF nm g disk).disk p = false := by
  unfold processGroup
  by_cases hall : ((g.map (fun c => c.path)).all disk) = true
  · rw [if_pos hall]
    simp [hd, hnc]
  · rw [if_neg hall]
    exact hd

theorem processGroups_nil (dlF : List Char) (cands : List Candidate)
    (disk : List Char → Bool) : processGroups dlF cands disk [] = ⟨disk, [], []⟩ := rfl

theorem processGroups_tagPids_cons (dlF : List Char) (cands : List Candidate)
    (disk : List Char → Bool) (nm : List Char) (rest : List (List Char)) :
    (processGroups dlF cands disk (nm :: rest)).tagPids =
      (processGroup dlF nm (chunkGroup cands nm) disk).tagPids ++
      (processGroups dlF cands
        (processGroup dlF nm (chunkGroup cands nm) disk).disk rest).tagPids := rfl

theorem processGroups_recNames_cons (dlF : List Char) (cands : List Candidate)
    (disk : List Char → Bool) (nm : List Char) (rest : List (List Char)) :
    (processGroups dlF cands disk (nm :: rest)).recNames =
      (if (processGroup dlF nm (chunkGroup cands nm) disk).reconstructed then [nm] else [])
      ++ (processGroups dlF cands
            (processGroup dlF nm (chunkGroup cands nm) disk).disk rest).recNames := rfl

theorem processGroups_tag_sound (dlF : List Char) (cands : List Candidate) :
    ∀ names disk pid, pid ∈ (processGroups dlF cands disk names).tagPids →
    ∃ nm c, c ∈ chunkGroup cands nm ∧ c.pid = pid := by
  intro names
  induction names with
  | nil =>
    intro disk pid h
    rw [processGroups_nil] at h
    simp at h
  | cons nm0 rest ih =>
    intro disk pid h
    rw [processGroups_tagPids_cons] at h
    rcases List.mem_append.mp h with h1 | h1
    · unfold processGroup at h1
      by_cases hall : ((chunkGroup cands nm0).map (fun c => c.path)).all disk = true
      · rw [if_pos hall] at h1
        simp only [List.mem_map] at h1
        obtain ⟨c, hcg, hcp⟩ := h1
        exact ⟨nm0, c, hcg, hcp⟩
      · rw [if_neg hall] at h1
        simp at h1
    · exact ih _ pid h1

theorem processGroups_not_mem (dlF : List Char) (cands : List Candidate) (X : Candidate)
    (hpid : ∀ c ∈ cands, c.pid = X.pid → c = X) :
    ∀ names disk, disk X.path = false →
    (∀ nm ∈ names, ¬ (X.path = dlF ++ nm)) →
    X.pid ∉ (processGroups dlF cands disk names).tagPids := by
  intro names
  induction names with
  | nil =>
    intro disk _ _ h
    rw [processGroups_nil] at h
    simp at h
  | cons nm0 rest ih =>
    intro disk hd hnc h
    rw [processGroups_tagPids_cons] at h
    rcases List.mem_append.mp h with h1 | h1
    · unfold processGroup at h1
      by_cases hall : ((chunkGroup cands nm0).map (fun c => c.path)).all disk = true
      · rw [if_pos hall] at h1
        simp only [List.mem_map] at h1
        obtain ⟨c, hcg, hcp⟩ := h1
        have hcc : c ∈ cands := (List.mem_filter.mp hcg).1
        have hcx : c = X := hpid c hcc hcp
        subst hcx
        have hmem : c.path ∈ (chunkGroup cands nm0).map (fun d => d.path) :=
          List.mem_map.mpr ⟨c, hcg, rfl⟩
        have := List.all_eq_true.mp hall _ hmem
        rw [hd] at this
        exact absurd this (by simp)
      · rw [if_neg hall] at h1
        simp at h1
    · refine ih (processGroup dlF nm0 (chunkGroup cands nm0) disk).disk ?_ ?_ h1
      · exact processGroup_disk_false dlF nm0 _ disk X.path hd (hnc nm0 (by simp))
      · intro nm hnm
        exact hnc nm (by simp [hnm])

theorem processGroups_recNames_subset (dlF : List Char) (cands : List Candidate) :
    ∀ names disk nm, nm ∈ (processGroups dlF cands disk names).recNames → nm ∈ names := by
  intro names
  induction names with
  | nil =>
    intro disk nm h
    rw [processGroups_nil] at h
    simp at h
  | cons nm0 rest ih =>
    intro disk nm h
    rw [processGroups_recNames_cons] at h
    rcases List.mem_append.mp h with h1 | h1
    · by_cases hrec : (processGroup dlF nm0 (chunkGroup cands nm0) disk).reconstructed = true
      · rw [if_pos hrec] at h1
        rw [List.mem_singleton] at h1
        simp [h1]
      · rw [if_neg hrec] at h1
        simp at h1
    · exact List.mem_cons_of_mem _ (ih _ nm h1)

theorem processGroups_congr (dlF : List Char) (cands : List Candidate) (bad : List Char)
    (hinj : ∀ a b, a ∈ cands → b ∈ cands → a.path = b.path → a = b) :
    ∀ names disk1 disk2,
    (∀ nm ∈ names, ∀ c ∈ cands, ¬ (c.path = dlF ++ nm)) →
    (∀ c ∈ cands, ¬ c.name = bad → disk1 c.path = disk2 c.path) →
    ∀ nm ∈ names, ¬ nm = bad →
      (nm ∈ (processGroups dlF cands disk1 names).recNames ↔
       nm ∈ (processGroups dlF cands disk2 names).recNames) := by
  intro names
  induction names with
  | nil =>
    intro disk1 disk2 _ _ nm hnm _
    simp at hnm
  | cons nm0 rest ih =>
    intro disk1 disk2 hnc hagree nm hnm hnb
    have hnc0 : ∀ c ∈ cands, ¬ (c.path = dlF ++ nm0) :=
      fun c hc => hnc nm0 (List.mem_cons_self nm0 rest) c hc
    have hncrest : ∀ nm2 ∈ rest, ∀ c ∈ cands, ¬ (c.path = dlF ++ nm2) :=
      fun nm2 hnm2 c hc => hnc nm2 (List.mem_cons_of_mem nm0 hnm2) c hc
    have hnotgroup : ∀ c ∈ cands, ¬ c.name = bad →
        c.path ∉ (chunkGroup cands nm0).map (fun d => d.path) ∨ c.name = nm0 := by
      intro c hc hcb
      by_cases hcg : c.path ∈ (chunkGroup cands nm0).map (fun d => d.path)
      · obtain ⟨d, hdg, hdp⟩ := List.mem_map.mp hcg
        have hdc : d = c := hinj d c (List.mem_filter.mp hdg).1 hc hdp
        subst hdc
        have := (List.mem_filter.mp hdg).2
        simp only [Bool.and_eq_true, beq_iff_eq] at this
        exact Or.inr this.2
      · exact Or.inl hcg
    rw [processGroups_recNames_cons, processGroups_recNames_cons]
    by_cases hb0 : nm0 = bad
    · -- the bad group: branch decisions may differ, but nm ≠ bad = nm0
      have hagree2 : ∀ c ∈ cands, ¬ c.name = bad →
          (processGroup dlF nm0 (chunkGroup cands nm0) disk1).disk c.path =
          (processGroup dlF nm0 (chunkGroup cands nm0) disk2).disk c.path := by
        intro c hc hcb
        rcases hnotgroup c hc hcb with hng | hname
        · rw [processGroup_disk_other dlF nm0 _ disk1 c.path hng (hnc0 c hc),
            processGroup_disk_other dlF nm0 _ disk2 c.path hng (hnc0 c hc)]
          exact hagree c hc hcb
        · exact absurd (hname.trans hb0) hcb
      have hih := ih _ _ hncrest hagree2 nm
      constructor
      · intro hin
        rcases List.mem_append.mp hin with h1 | h1
        · exfalso
          by_cases hrec :
              (processGroup dlF nm0 (chunkGroup cands nm0) disk1).reconstructed = true
          · rw [if_pos hrec] at h1
            rw [List.mem_singleton] at h1
            exact hnb (h1.trans hb0)
          · rw [if_neg hrec] at h1
            simp at h1
        · have hnrest : nm ∈ rest := processGroups_recNames_subset dlF cands rest _ nm h1
          have := (hih hnrest hnb).mp h1
          exact List.mem_append.mpr (Or.inr this)
      · intro hin
        rcases List.mem_append.mp hin with h1 | h1
        · exfalso
          by_cases hrec :
              (processGroup dlF nm0 (chunkGroup cands nm0) disk2).reconstructed = true
          · rw [if_pos hrec] at h1
            rw [List.mem_singleton] at h1
            exact hnb (h1.trans hb0)
          · rw [if_neg hrec] at h1
            simp at h1
        · have hnrest : nm ∈ rest := processGroups_recNames_subset dlF cands rest _ nm h1
          have := (hih hnrest hnb).mpr h1
          exact List.mem_append.mpr (Or.inr this)
    · -- a non-bad group: both sides take the same branch
      have hcond : ((chunkGroup cands nm0).map (fun c => c.path)).all disk1
          = ((chunkGroup cands nm0).map (fun c => c.path)).all disk2 := by
        apply all_congr_mem
        intro p hp
        obtain ⟨d, hdg, rfl⟩ := List.mem_map.mp hp
        have hdn := (List.mem_filter.mp hdg).2
        simp only [Bool.and_eq_true, beq_iff_eq] at hdn
        exact hagree d (List.mem_filter.mp hdg).1 (by rw [hdn.2]; exact hb0)
      have hagree2 : ∀ c ∈ cands, ¬ c.name = bad →
          (processGroup dlF nm0 (chunkGroup cands nm0) disk1).disk c.path =
          (processGroup dlF nm0 (chunkGroup cands nm0) disk2).disk c.path := by
        intro c hc hcb
        unfold processGroup
        by_cases hall : ((chunkGroup cands nm0).map (fun c => c.path)).all disk1 = true
        · rw [if_pos hall, if_pos (by rw [← hcond]; exact hall)]
          by_cases hcg : c.path ∈ (chunkGroup cands nm0).map (fun d => d.path)
          · simp [hcg]
          · simp [hcg]
            rw [hagree c hc hcb]
        · rw [if_neg hall, if_neg (by rw [← hcond]; exact hall)]
          exact hagree c hc hcb
      have hrec : (processGroup dlF nm0 (chunkGroup cands nm0) disk1).reconstructed
          = (processGroup dlF nm0 (chunkGroup cands nm0) disk2).reconstructed := by
        unfold processGroup
        by_cases hall : ((chunkGroup cands nm0).map (fun c => c.path)).all disk1 = true
        · rw [if_pos hall, if_pos (by rw [← hcond]; exact hall)]
        · rw [if_neg hall, if_neg (by rw [← hcond]; exact hall)]
      have hih := ih _ _ hncrest hagree2 nm
      rw [← hrec]
      by_cases hnrest : nm ∈ rest
      · have hiff := hih hnrest hnb
        constructor
        · intro hin
          rcases List.mem_append.mp hin with h1 | h1
          · exact List.mem_append.mpr (Or.inl h1)
          · exact List.mem_append.mpr (Or.inr (hiff.mp h1))
        · intro hin
          rcases List.mem_append.mp hin with h1 | h1
          · exact List.mem_append.mpr (Or.inl h1)
          · exact List.mem_append.mpr (Or.inr (hiff.mpr h1))
      · have hn1 : nm ∉ (processGroups dlF cands
            (processGroup dlF nm0 (chunkGroup cands nm0) disk1).disk rest).recNames :=
          fun hx => hnrest (processGroups_recNames_subset dlF cands rest _ nm hx)
        have hn2 : nm ∉ (processGroups dlF cands
            (processGroup dlF nm0 (chunkGroup cands nm0) disk2).disk rest).recNames :=
          fun hx => hnrest (processGroups_recNames_subset dlF cands rest _ nm hx)
        constructor
        · intro hin
          rcases List.mem_append.mp hin with h1 | h1
          · exact List.mem_append.mpr (Or.inl h1)
          · exact absurd h1 hn1
        · intro hin
          rcases List.mem_append.mp hin with h1 | h1
          · exact List.mem_append.mpr (Or.inl h1)
          · exact absurd h1 hn2

theorem runFromCands_results (dlF : List Char) (disk0 : List Char → Bool) (env : DlEnv)
    (cands : List Candidate) :
    (runFromCands dlF disk0 env cands).results = downloadResults disk0 env cands := rfl

theorem runFromCands_successPids (dlF : List Char) (disk0 : List Char → Bool) (env : DlEnv)
    (cands : List Candidate) :
    (runFromCands dlF disk0 env cands).successPids
      = (((downloadResults disk0 env cands).filter (fun r => r.2.ok)).map
          (fun r => r.1)).map (fun c => c.pid) := rfl

theorem runFromCands_directTagPids (dlF : List Char) (disk0 : List Char → Bool) (env : DlEnv)
    (cands : List Candidate) :
    (runFromCands dlF disk0 env cands).directTagPids
      = ((((downloadResults disk0 env cands).filter (fun r => r.2.ok)).map
          (fun r => r.1)).filter (fun c => c.totalChunks == 1)).map (fun c => c.pid) := rfl

theorem runFromCands_tagUpdatedPids (dlF : List Char) (disk0 : List Char → Bool) (env : DlEnv)
    (cands : List Candidate) :
    (runFromCands dlF disk0 env cands).tagUpdatedPids
      = (runFromCands dlF disk0 env cands).directTagPids
        ++ (processGroups dlF cands (diskAfterDl disk0 env cands) (groupNames cands)).tagPids :=
  rfl

theorem runFromCands_recNames (dlF : List Char) (disk0 : List Char → Bool) (env : DlEnv)
    (cands : List Candidate) :
    (runFromCands dlF disk0 env cands).recNames
      = (processGroups dlF cands (diskAfterDl disk0 env cands) (groupNames cands)).recNames :=
  rfl

/-! ### C7: per-candidate part-failure containment -/

/-- C7: If any part of candidate X's download fails (X's target was not on
disk and some part request of its plan fails), download_file_multipart for
X returns False after deleting its temporary .parts directory and without
completing a final file; X is excluded from the successful set, so no tag
update for X happens in either the direct phase or the group phase (its
own group cannot reconstruct, since X's fragment is missing); and every
other candidate, and every other reassembly group, proceeds exactly as it
would under any outcome environment that differs only at X's page.  The
batch sanity hypotheses say that page ids and destination paths identify
candidates and that no reassembly group's final file path aliases a
candidate's own destination path (true of real batches, where group
final files sit directly in the download folder while chunk fragments
sit under its temp_chunks subdirectory and single-chunk names are
distinct from multi-chunk names). -/
theorem partFailureContainment
    (dlF : List Char) (disk0 : List Char → Bool) (env : DlEnv)
    (cands : List Candidate) (X : Candidate)
    (hX : X ∈ cands)
    (hpid : ∀ c ∈ cands, c.pid = X.pid → c = X)
    (hinj : ∀ a b, a ∈ cands → b ∈ cands → a.path = b.path → a = b)
    (hnc : ∀ nm ∈ groupNames cands, ∀ c ∈ cands, ¬ (c.path = dlF ++ nm))
    (hd : disk0 X.path = false)
    (hfail : ∃ i, i < numParts X.size partSizeDl ∧ env.partOk X.pid i = false) :
    ((runCand disk0 env X).ok = false
      ∧ (runCand disk0 env X).tempDeleted = true
      ∧ (runCand disk0 env X).finalComplete = false)
    ∧ X.pid ∉ (runFromCands dlF disk0 env cands).successPids
    ∧ X.pid ∉ (runFromCands dlF disk0 env cands).tagUpdatedPids
    ∧ (∀ env2 : DlEnv,
        (∀ p, p ≠ X.pid → env2.partOk p = env.partOk p) →
        (∀ p, p ≠ X.pid → env2.concatOk p = env.concatOk p) →
        ((∀ Y ∈ cands, Y.pid ≠ X.pid → runCand disk0 env2 Y = runCand disk0 env Y)
          ∧ (∀ nm ∈ groupNames cands, ¬ nm = X.name →
              (nm ∈ (runFromCands dlF disk0 env2 cands).recNames ↔
               nm ∈ (runFromCands dlF disk0 env cands).recNames)))) := by
  have hpall : partsAllOk env X = false := by
    obtain ⟨i, hi, hif⟩ := hfail
    by_contra h
    have h2 : partsAllOk env X = true := by
      revert h
      cases partsAllOk env X <;> simp
    have h3 := List.all_eq_true.mp h2 i (List.mem_range.mpr hi)
    rw [hif] at h3
    exact absurd h3 (by simp)
  have hfields : (runCand disk0 env X).ok = false
      ∧ (runCand disk0 env X).tempDeleted = true
      ∧ (runCand disk0 env X).finalComplete = false := by
    unfold runCand
    rw [hd]
    unfold dlFile
    have hallfalse : (List.range (numParts X.size partSizeDl)).all (env.partOk X.pid)
        = false := hpall
    simp [hallfalse]
  have hsucc : X.pid ∉ (runFromCands dlF disk0 env cands).successPids := by
    intro hmem
    rw [runFromCands_successPids] at hmem
    rw [List.mem_map] at hmem
    obtain ⟨c, hc, hcp⟩ := hmem
    rw [List.mem_map] at hc
    obtain ⟨r, hr, rfl⟩ := hc
    rw [List.mem_filter] at hr
    obtain ⟨hrres, hrok⟩ := hr
    unfold downloadResults at hrres
    rw [List.mem_map] at hrres
    obtain ⟨c0, hc0, rfl⟩ := hrres
    have hc0c : c0 ∈ cands := (List.mem_filter.mp hc0).1
    have hc0X : c0 = X := hpid c0 hc0c hcp
    subst hc0X
    rw [hfields.1] at hrok
    exact absurd hrok (by simp)
  refine ⟨hfields, hsucc, ?_, ?_⟩
  · intro hmem
    rw [runFromCands_tagUpdatedPids] at hmem
    rcases List.mem_append.mp hmem with h1 | h1
    · rw [runFromCands_directTagPids] at h1
      rw [List.mem_map] at h1
      obtain ⟨c, hc, hcp⟩ := h1
      rw [List.mem_filter] at hc
      obtain ⟨hc, -⟩ := hc
      rw [List.mem_map] at hc
      obtain ⟨r, hr, rfl⟩ := hc
      rw [List.mem_filter] at hr
      obtain ⟨hrres, hrok⟩ := hr
      unfold downloadResults at hrres
      rw [List.mem_map] at hrres
      obtain ⟨c0, hc0, rfl⟩ := hrres
      have hc0c : c0 ∈ cands := (List.mem_filter.mp hc0).1
      have hc0X : c0 = X := hpid c0 hc0c hcp
      subst hc0X
      rw [hfields.1] at hrok
      exact absurd hrok (by simp)
    · have hdafter : diskAfterDl disk0 env cands X.path = false := by
        rw [diskAfterDl_at disk0 env cands X hX hinj, hd]
        simp [dlWroteB, hpall]
      by_cases hchunk : X.totalChunks = 1
      · obtain ⟨nm, c, hcg, hcp⟩ := processGroups_tag_sound dlF cands _ _ _ h1
        have hcc : c ∈ cands := (List.mem_filter.mp hcg).1
        have hcX : c = X := hpid c hcc hcp
        subst hcX
        have := (List.mem_filter.mp hcg).2
        simp only [isChunkCand, Bool.and_eq_true, bne_iff_ne] at this
        exact absurd hchunk this.1
      · exact processGroups_not_mem dlF cands X hpid (groupNames cands)
          (diskAfterDl disk0 env cands) hdafter
          (fun nm hnm => hnc nm hnm X hX) h1
  · intro env2 hp2 hc2
    constructor
    · intro Y hY hYX
      unfold runCand
      rw [hp2 Y.pid hYX, hc2 Y.pid hYX]
    · intro nm hnm hnmX
      rw [runFromCands_recNames, runFromCands_recNames]
      refine processGroups_congr dlF cands X.name hinj (groupNames cands)
        (diskAfterDl disk0 env2 cands) (diskAfterDl disk0 env cands) hnc ?_ nm hnm hnmX
      intro c hc hcb
      rw [diskAfterDl_at disk0 env2 cands c hc hinj,
        diskAfterDl_at disk0 env cands c hc hinj]
      have hcX : c.pid ≠ X.pid := fun hp => hcb (by rw [hpid c hc hp])
      unfold dlWroteB partsAllOk
      rw [hp2 c.pid hcX]

/-- Witness for C7: a two-chunk file laid out as candOf does it - download
folder "d/", chunk fragments "d/t/v.part001" and "d/t/v.part002" under a
scratch subdirectory - where every part of chunk 1's candidate fails. -/
theorem partFailureContainment_witness :
    (runCand (fun _ => false) ⟨fun pid _ => pid != 1, fun _ => true⟩
      (⟨1, ['v'], 1, 2, ['d', '/', 't', '/'] ++ chunkFileName ['v'] 1, 5⟩ : Candidate)).ok
        = false
    ∧ (1 : Nat) ∉ (runFromCands ['d', '/'] (fun _ => false)
        ⟨fun pid _ => pid != 1, fun _ => true⟩
        [⟨1, ['v'], 1, 2, ['d', '/', 't', '/'] ++ chunkFileName ['v'] 1, 5⟩,
         ⟨2, ['v'], 2, 2, ['d', '/', 't', '/'] ++ chunkFileName ['v'] 2, 5⟩]).successPids := by
  have h := partFailureContainment ['d', '/'] (fun _ => false)
    ⟨fun pid _ => pid != 1, fun _ => true⟩
    [⟨1, ['v'], 1, 2, ['d', '/', 't', '/'] ++ chunkFileName ['v'] 1, 5⟩,
     ⟨2, ['v'], 2, 2, ['d', '/', 't', '/'] ++ chunkFileName ['v'] 2, 5⟩]
    ⟨1, ['v'], 1, 2, ['d', '/', 't', '/'] ++ chunkFileName ['v'] 1, 5⟩
    (by decide) (by decide)
    (by
      intro a b ha hb hab
      rcases List.mem_cons.mp ha with rfl | ha2
      · rcases List.mem_cons.mp hb with rfl | hb2
        · rfl
        · rw [List.mem_singleton] at hb2
          subst hb2
          exact absurd hab (by decide)
      · rw [List.mem_singleton] at ha2
        subst ha2
        rcases List.mem_cons.mp hb with rfl | hb2
        · exact absurd hab (by decide)
        · rw [List.mem_singleton] at hb2
          subst hb2
          rfl)
    (by decide) rfl ⟨0, by decide, rfl⟩
  exact ⟨h.1.1, h.2.1⟩

/-! ### C9: size-zero exclusion -/

/-- C9 (amended): A candidate whose size probe fails or reports total size
0 is excluded from the download phase entirely - it appears in no download
result (so no part is fetched and no temporary directory is created for
it), it is never counted successful, and it receives no direct (non-chunk)
tag update - and the download results of the rest of the batch are exactly
what they would be without the candidate.  (Its page can still receive a
tag update in the reassembly phase when its fragment already exists on
disk from an earlier run and completes its group; see the counterexample
to the unqualified claim.) -/
theorem sizeZeroExclusion
    (dlF : List Char) (disk0 : List Char → Bool) (env : DlEnv)
    (cands : List Candidate) (X : Candidate)
    (hX : X ∈ cands) (hs : X.size = 0)
    (hpid : ∀ c ∈ cands, c.pid = X.pid → c = X) :
    (∀ r ∈ (runFromCands dlF disk0 env cands).results, r.1.pid ≠ X.pid)
    ∧ X.pid ∉ (runFromCands dlF disk0 env cands).successPids
    ∧ X.pid ∉ (runFromCands dlF disk0 env cands).directTagPids
    ∧ (runFromCands dlF disk0 env cands).results
        = (runFromCands dlF disk0 env (cands.erase X)).results := by
  have hattX : ∀ c, c ∈ attemptedTasks cands → c.pid = X.pid → False := by
    intro c hc hcp
    rw [attemptedTasks, List.mem_filter] at hc
    obtain ⟨hcc, hcs⟩ := hc
    have hcX : c = X := hpid c hcc hcp
    subst hcX
    rw [hs] at hcs
    exact absurd hcs (by simp)
  refine ⟨?_, ?_, ?_, ?_⟩
  · intro r hr
    rw [runFromCands_results] at hr
    unfold downloadResults at hr
    rw [List.mem_map] at hr
    obtain ⟨c0, hc0, rfl⟩ := hr
    exact fun hcp => hattX c0 hc0 hcp
  · intro hmem
    rw [runFromCands_successPids] at hmem
    rw [List.mem_map] at hmem
    obtain ⟨c, hc, hcp⟩ := hmem
    rw [List.mem_map] at hc
    obtain ⟨r, hr, rfl⟩ := hc
    rw [List.mem_filter] at hr
    unfold downloadResults at hr
    obtain ⟨hrres, -⟩ := hr
    rw [List.mem_map] at hrres
    obtain ⟨c0, hc0, rfl⟩ := hrres
    exact hattX c0 hc0 hcp
  · intro hmem
    rw [runFromCands_directTagPids] at hmem
    rw [List.mem_map] at hmem
    obtain ⟨c, hc, hcp⟩ := hmem
    rw [List.mem_filter] at hc
    obtain ⟨hc, -⟩ := hc
    rw [List.mem_map] at hc
    obtain ⟨r, hr, rfl⟩ := hc
    rw [List.mem_filter] at hr
    unfold downloadResults at hr
    obtain ⟨hrres, -⟩ := hr
    rw [List.mem_map] at hrres
    obtain ⟨c0, hc0, rfl⟩ := hrres
    exact hattX c0 hc0 hcp
  · rw [runFromCands_results, runFromCands_results]
    unfold downloadResults
    rw [show attemptedTasks (cands.erase X) = attemptedTasks cands from by
      unfold attemptedTasks
      exact filter_erase_not cands X _ (by simp [hs])]

/-- Counterexample for C9 as stated: a two-chunk file whose chunk-2
candidate has size 0 (failed probe) but whose chunk-2 fragment is already
on disk from an earlier run; chunk 1 downloads, the group completes, and
the size-0 candidate's page tag IS updated in the reassembly phase. -/
theorem sizeZeroExclusion_counterexample :
    (⟨2, ['v'], 2, 2, ['t', '/'] ++ chunkFileName ['v'] 2, 0⟩ : Candidate).size = 0
    ∧ (⟨2, ['v'], 2, 2, ['t', '/'] ++ chunkFileName ['v'] 2, 0⟩ : Candidate) ∈
        ([⟨1, ['v'], 1, 2, ['t', '/'] ++ chunkFileName ['v'] 1, 5⟩,
          ⟨2, ['v'], 2, 2, ['t', '/'] ++ chunkFileName ['v'] 2, 0⟩] : List Candidate)
    ∧ (2 : Nat) ∈ (runFromCands ['d', '/']
        (fun p => p == ['t', '/'] ++ chunkFileName ['v'] 2)
        ⟨fun _ _ => true, fun _ => true⟩
        [⟨1, ['v'], 1, 2, ['t', '/'] ++ chunkFileName ['v'] 1, 5⟩,
         ⟨2, ['v'], 2, 2, ['t', '/'] ++ chunkFileName ['v'] 2, 0⟩]).tagUpdatedPids := by
  refine ⟨rfl, by decide, by decide⟩

/-- Witness for C9: a size-0 candidate is absent from results, successes
and direct tag updates. -/
theorem sizeZeroExclusion_witness :
    (7 : Nat) ∉ (runFromCands ['d'] (fun _ => false) ⟨fun _ _ => true, fun _ => true⟩
        [⟨7, ['w'], 1, 1, ['q'], 0⟩]).successPids
    ∧ (7 : Nat) ∉ (runFromCands ['d'] (fun _ => false) ⟨fun _ _ => true, fun _ => true⟩
        [⟨7, ['w'], 1, 1, ['q'], 0⟩]).directTagPids := by
  have h := sizeZeroExclusion ['d'] (fun _ => false) ⟨fun _ _ => true, fun _ => true⟩
    [⟨7, ['w'], 1, 1, ['q'], 0⟩] ⟨7, ['w'], 1, 1, ['q'], 0⟩ (by decide) rfl (by decide)
  exact ⟨h.2.1, h.2.2.1⟩

end NotionTransfer
